import Mathlib

/-!
Verification of the connected-components engine (CSC binary matrix, two
sequential and two OpenMP algorithm variants, matrix loaders).  The C sources
are shallowly embedded: label arrays become `List Nat`, the while-loops of the
find operations become fueled recursions (the fuel is shown sufficient under
the invariants the program maintains), and the OpenMP variants are embedded as
the sequential functions obtained by executing their loops in program order.
-/

namespace CC

/-- Compressed Sparse Column binary matrix, mirroring `CSCBinaryMatrix` in
matrix.h: dimensions, number of stored entries, row indices (length `nnz`)
and column pointers (length `ncols + 1`). -/
structure CSCBinaryMatrix where
  nrows : Nat
  ncols : Nat
  nnz : Nat
  row_idx : List Nat
  col_ptr : List Nat

/-- Structural invariant of a valid CSC matrix (spec section 3): square,
`col_ptr` monotone from 0 to `nnz`, all row indices in `[0, N)`. -/
def CSCBinaryMatrix.Valid (M : CSCBinaryMatrix) : Prop :=
  M.nrows = M.ncols ∧
  M.col_ptr.length = M.ncols + 1 ∧
  M.row_idx.length = M.nnz ∧
  M.col_ptr.getD 0 0 = 0 ∧
  M.col_ptr.getD M.ncols 0 = M.nnz ∧
  (∀ j, j < M.ncols → M.col_ptr.getD j 0 ≤ M.col_ptr.getD (j + 1) 0) ∧
  (∀ r ∈ M.row_idx, r < M.nrows)

instance (M : CSCBinaryMatrix) : Decidable M.Valid := by
  unfold CSCBinaryMatrix.Valid
  infer_instance

/-- Stored row indices of column `c`: the slice
`row_idx[col_ptr[c] .. col_ptr[c+1])`, the range of the inner loop shared by
all four algorithms. -/
def colRows (M : CSCBinaryMatrix) (c : Nat) : List Nat :=
  (List.range' (M.col_ptr.getD c 0)
      (M.col_ptr.getD (c + 1) 0 - M.col_ptr.getD c 0)).map
    (fun j => M.row_idx.getD j 0)

/-- All stored entries as `(row, col)` pairs in column-major processing
order: the exact iteration order of the edge loops in cc_sequential.c and
cc_openmp.c. -/
def edges (M : CSCBinaryMatrix) : List (Nat × Nat) :=
  (List.range M.ncols).flatMap (fun c => (colRows M c).map (fun r => (r, c)))

/-- Read of `label[x]`.  Out-of-range reads (which the C never performs on
valid inputs) default to `x` itself. -/
def par (l : List Nat) (x : Nat) : Nat := l.getD x x

/-- A root of the parent forest: a fixed point of `par`. -/
def isRoot (l : List Nat) (x : Nat) : Prop := par l x = x

instance (l : List Nat) (x : Nat) : Decidable (isRoot l x) := by
  unfold isRoot
  infer_instance

/-- The decreasing invariant every label array of this program maintains:
each parent pointer is at most its index (links always attach the larger
root below the smaller one). -/
def Decr (l : List Nat) : Prop := ∀ x, par l x ≤ x

/-- Fueled walk to the root: the embedding of
`while (label[i] != i) i = label[i]`. -/
def rootF (l : List Nat) : Nat → Nat → Nat
  | 0, x => x
  | fuel + 1, x => if par l x = x then x else rootF l fuel (par l x)

/-- Root of `x` in the parent forest; fuel `x + 1` suffices under `Decr`. -/
def rootP (l : List Nat) (x : Nat) : Nat := rootF l (x + 1) x

lemma par_ge_length (l : List Nat) (x : Nat) (h : l.length ≤ x) : par l x = x := by
  unfold par
  rw [List.getD_eq_getElem?_getD, List.getElem?_eq_none (by omega)]
  rfl

lemma lt_length_of_not_isRoot {l : List Nat} {x : Nat} (h : ¬ isRoot l x) :
    x < l.length := by
  by_contra hx
  exact h (par_ge_length l x (by omega))

lemma par_lt_of_not_isRoot {l : List Nat} {x : Nat} (hd : Decr l)
    (h : ¬ isRoot l x) : par l x < x :=
  lt_of_le_of_ne (hd x) h

lemma isRoot_zero {l : List Nat} (hd : Decr l) : isRoot l 0 :=
  Nat.le_zero.mp (hd 0)

lemma rootF_isRoot {l : List Nat} (hd : Decr l) :
    ∀ fuel x, x < fuel → isRoot l (rootF l fuel x) := by
  intro fuel
  induction fuel with
  | zero => intro x hx; omega
  | succ f ih =>
    intro x hx
    rw [rootF]
    by_cases hr : par l x = x
    · simp only [hr, if_pos rfl]
      exact hr
    · simp only [hr, if_false]
      exact ih (par l x) (by have := par_lt_of_not_isRoot hd hr; omega)

lemma rootF_congr {l : List Nat} (hd : Decr l) :
    ∀ x f g, x < f → x < g → rootF l f x = rootF l g x := by
  intro x
  induction x using Nat.strong_induction_on with
  | _ x ih =>
    intro f g hf hg
    obtain ⟨f', rfl⟩ : ∃ f', f = f' + 1 := ⟨f - 1, by omega⟩
    obtain ⟨g', rfl⟩ : ∃ g', g = g' + 1 := ⟨g - 1, by omega⟩
    rw [rootF, rootF]
    by_cases hr : par l x = x
    · simp [hr]
    · simp only [hr, if_false]
      have hlt := par_lt_of_not_isRoot hd hr
      exact ih (par l x) hlt f' g' (by omega) (by omega)

lemma rootP_isRoot {l : List Nat} (hd : Decr l) (x : Nat) :
    isRoot l (rootP l x) :=
  rootF_isRoot hd (x + 1) x (by omega)

lemma rootP_eq_self_of_isRoot {l : List Nat} {x : Nat} (h : isRoot l x) :
    rootP l x = x := by
  have h' : par l x = x := h
  unfold rootP
  rw [rootF, if_pos h']

lemma rootP_step {l : List Nat} (hd : Decr l) {x : Nat} (h : ¬ isRoot l x) :
    rootP l x = rootP l (par l x) := by
  have hlt := par_lt_of_not_isRoot hd h
  have h' : ¬ par l x = x := h
  unfold rootP
  rw [rootF, if_neg h']
  exact rootF_congr hd (par l x) x (par l x + 1) (by omega) (by omega)

lemma rootP_le {l : List Nat} (hd : Decr l) (x : Nat) : rootP l x ≤ x := by
  induction x using Nat.strong_induction_on with
  | _ x ih =>
    by_cases hr : isRoot l x
    · rw [rootP_eq_self_of_isRoot hr]
    · have hlt := par_lt_of_not_isRoot hd hr
      rw [rootP_step hd hr]
      exact le_trans (ih (par l x) hlt) (le_of_lt hlt)

lemma isRoot_iff_rootP {l : List Nat} (hd : Decr l) {x : Nat} :
    isRoot l x ↔ rootP l x = x := by
  constructor
  · exact rootP_eq_self_of_isRoot
  · intro h
    by_contra hr
    have hlt := par_lt_of_not_isRoot hd hr
    have := rootP_le hd (par l x)
    rw [rootP_step hd hr] at h
    omega

lemma rootP_rootP {l : List Nat} (hd : Decr l) (x : Nat) :
    rootP l (rootP l x) = rootP l x :=
  rootP_eq_self_of_isRoot (rootP_isRoot hd x)

lemma par_set (l : List Nat) (i v x : Nat) :
    par (l.set i v) x = if x = i ∧ i < l.length then v else par l x := by
  by_cases hx : x = i
  · subst hx
    by_cases hlen : x < l.length
    · simp only [hlen, and_true, if_pos rfl]
      unfold par
      rw [List.getD_eq_getElem?_getD, List.getElem?_set_self hlen]
      rfl
    · have : l.set x v = l := List.set_eq_of_length_le (by omega)
      simp [this, hlen]
  · simp only [hx, false_and, if_false]
    unfold par
    rw [List.getD_eq_getElem?_getD, List.getElem?_set_ne (by omega),
      ← List.getD_eq_getElem?_getD]

lemma decr_set_grandparent {l : List Nat} (hd : Decr l) (i : Nat) :
    Decr (l.set i (par l (par l i))) := by
  intro x
  rw [par_set]
  by_cases hx : x = i ∧ i < l.length
  · rw [if_pos hx]
    exact le_trans (hd (par l i)) (le_trans (hd i) (le_of_eq hx.1.symm))
  · rw [if_neg hx]
    exact hd x

/-- A path-halving write `label[i] = label[label[i]]` changes no root. -/
lemma rootP_set_grandparent {l : List Nat} (hd : Decr l) {i : Nat}
    (h : ¬ isRoot l i) :
    ∀ x, rootP (l.set i (par l (par l i))) x = rootP l x := by
  have hi : i < l.length := lt_length_of_not_isRoot h
  set g := par l (par l i) with hg
  set L := l.set i g with hL
  have hdL : Decr L := decr_set_grandparent hd i
  have hparL : ∀ x, par L x = if x = i then g else par l x := by
    intro x
    rw [hL, par_set]
    by_cases hx : x = i
    · simp [hx, hi]
    · simp [hx]
  have hpi : par l i < i := par_lt_of_not_isRoot hd h
  have hgi : g < i := lt_of_le_of_lt (hd (par l i)) hpi
  intro x
  induction x using Nat.strong_induction_on with
  | _ x ih =>
    by_cases hr : isRoot l x
    · have hxi : x ≠ i := fun he => h (he ▸ hr)
      have hrL : isRoot L x := by
        unfold isRoot
        rw [hparL, if_neg hxi]
        exact hr
      rw [rootP_eq_self_of_isRoot hrL, rootP_eq_self_of_isRoot hr]
    · by_cases hxi : x = i
      · subst hxi
        have hnrL : ¬ isRoot L x := by
          unfold isRoot
          rw [hparL, if_pos rfl]
          omega
        rw [rootP_step hdL hnrL, hparL, if_pos rfl]
        rw [rootP_step hd hr]
        by_cases hroot : isRoot l (par l x)
        · have hge : g = par l x := hroot
          rw [hge]
          have hrootL : isRoot L (par l x) := by
            unfold isRoot
            rw [hparL, if_neg (by omega)]
            exact hroot
          rw [rootP_eq_self_of_isRoot hrootL, rootP_eq_self_of_isRoot hroot]
        · rw [rootP_step hd hroot, ← hg]
          exact ih g hgi
      · have hnrL : ¬ isRoot L x := by
          unfold isRoot
          rw [hparL, if_neg hxi]
          exact hr
        have hpx : par l x < x := par_lt_of_not_isRoot hd hr
        rw [rootP_step hdL hnrL, hparL, if_neg hxi, rootP_step hd hr]
        exact ih (par l x) hpx

lemma decr_set_link {l : List Nat} (hd : Decr l) {r1 r2 : Nat} (h12 : r1 < r2) :
    Decr (l.set r2 r1) := by
  intro x
  rw [par_set]
  by_cases hx : x = r2 ∧ r2 < l.length
  · rw [if_pos hx]
    omega
  · rw [if_neg hx]
    exact hd x

/-- Linking root `r2` below root `r1` merges exactly the two trees: the new
root of `x` is `r1` whenever its old root was `r2`, and is unchanged
otherwise. -/
lemma rootP_set_link {l : List Nat} (hd : Decr l) {r1 r2 : Nat}
    (hr1 : isRoot l r1) (hr2 : isRoot l r2) (h12 : r1 < r2)
    (hlen : r2 < l.length) :
    ∀ x, rootP (l.set r2 r1) x = if rootP l x = r2 then r1 else rootP l x := by
  set L := l.set r2 r1 with hL
  have hdL : Decr L := decr_set_link hd h12
  have hparL : ∀ x, par L x = if x = r2 then r1 else par l x := by
    intro x
    rw [hL, par_set]
    by_cases hx : x = r2
    · simp [hx, hlen]
    · simp [hx]
  have hr1L : isRoot L r1 := by
    unfold isRoot
    rw [hparL, if_neg (by omega)]
    exact hr1
  intro x
  induction x using Nat.strong_induction_on with
  | _ x ih =>
    by_cases hr : isRoot l x
    · by_cases hx2 : x = r2
      · subst hx2
        have hnrL : ¬ isRoot L x := by
          unfold isRoot
          rw [hparL, if_pos rfl]
          omega
        rw [rootP_step hdL hnrL, hparL, if_pos rfl,
          rootP_eq_self_of_isRoot hr1L, rootP_eq_self_of_isRoot hr, if_pos rfl]
      · have hrL : isRoot L x := by
          unfold isRoot
          rw [hparL, if_neg hx2]
          exact hr
        rw [rootP_eq_self_of_isRoot hrL, rootP_eq_self_of_isRoot hr,
          if_neg hx2]
    · have hx2 : x ≠ r2 := fun he => hr (he ▸ hr2)
      have hnrL : ¬ isRoot L x := by
        unfold isRoot
        rw [hparL, if_neg hx2]
        exact hr
      have hpx : par l x < x := par_lt_of_not_isRoot hd hr
      rw [rootP_step hdL hnrL, hparL, if_neg hx2, rootP_step hd hr]
      exact ih (par l x) hpx

/-- Undirected adjacency generated by a list of stored entries. -/
def adjE (E : List (Nat × Nat)) (a b : Nat) : Prop := (a, b) ∈ E ∨ (b, a) ∈ E

/-- Connectivity: reflexive-transitive closure of the adjacency of `E`.
Two nodes are in the same component iff they are related by `StarE`. -/
def StarE (E : List (Nat × Nat)) : Nat → Nat → Prop :=
  Relation.ReflTransGen (adjE E)

lemma adjE_symm (E : List (Nat × Nat)) : Symmetric (adjE E) := by
  intro a b h
  exact h.symm

lemma starE_refl (E : List (Nat × Nat)) (x : Nat) : StarE E x x :=
  Relation.ReflTransGen.refl

lemma starE_symm {E : List (Nat × Nat)} {a b : Nat} (h : StarE E a b) :
    StarE E b a :=
  Relation.ReflTransGen.symmetric (adjE_symm E) h

lemma starE_trans {E : List (Nat × Nat)} {a b c : Nat} (h1 : StarE E a b)
    (h2 : StarE E b c) : StarE E a c :=
  Relation.ReflTransGen.trans h1 h2

lemma starE_of_mem {E : List (Nat × Nat)} {e : Nat × Nat} (h : e ∈ E) :
    StarE E e.1 e.2 :=
  Relation.ReflTransGen.single (Or.inl (by simpa using h))

lemma starE_nil {x y : Nat} : StarE [] x y ↔ x = y := by
  constructor
  · intro h
    induction h with
    | refl => rfl
    | tail _ hstep ih =>
      rcases hstep with h' | h' <;> simp at h'
  · rintro rfl
    exact starE_refl [] x

lemma starE_mono {E E' : List (Nat × Nat)} (hsub : ∀ e ∈ E, e ∈ E')
    {x y : Nat} (h : StarE E x y) : StarE E' x y := by
  induction h with
  | refl => exact starE_refl E' x
  | tail _ hstep ih =>
    refine Relation.ReflTransGen.tail ih ?_
    rcases hstep with h' | h'
    · exact Or.inl (hsub _ h')
    · exact Or.inr (hsub _ h')

/-- Effect of appending one more processed entry on connectivity. -/
lemma starE_append_single {E : List (Nat × Nat)} {u v x y : Nat} :
    StarE (E ++ [(u, v)]) x y ↔
      StarE E x y ∨ (StarE E x u ∧ StarE E v y) ∨
        (StarE E x v ∧ StarE E u y) := by
  constructor
  · intro h
    induction h with
    | refl => exact Or.inl (starE_refl E x)
    | @tail b c _ hstep ih =>
      have hstep' : adjE E b c ∨ ((b = u ∧ c = v) ∨ (b = v ∧ c = u)) := by
        rcases hstep with h' | h'
        · rcases List.mem_append.mp h' with h'' | h''
          · exact Or.inl (Or.inl h'')
          · simp at h''
            exact Or.inr (Or.inl h'')
        · rcases List.mem_append.mp h' with h'' | h''
          · exact Or.inl (Or.inr h'')
          · simp at h''
            exact Or.inr (Or.inr ⟨h''.2, h''.1⟩)
      rcases hstep' with hadj | heq
      · rcases ih with h1 | ⟨h1, h2⟩ | ⟨h1, h2⟩
        · exact Or.inl (Relation.ReflTransGen.tail h1 hadj)
        · exact Or.inr (Or.inl ⟨h1, Relation.ReflTransGen.tail h2 hadj⟩)
        · exact Or.inr (Or.inr ⟨h1, Relation.ReflTransGen.tail h2 hadj⟩)
      · rcases heq with ⟨rfl, rfl⟩ | ⟨rfl, rfl⟩
        · rcases ih with h1 | ⟨h1, h2⟩ | ⟨h1, h2⟩
          · exact Or.inr (Or.inl ⟨h1, starE_refl E _⟩)
          · exact Or.inr (Or.inl ⟨h1, starE_refl E _⟩)
          · exact Or.inl h1
        · rcases ih with h1 | ⟨h1, h2⟩ | ⟨h1, h2⟩
          · exact Or.inr (Or.inr ⟨h1, starE_refl E _⟩)
          · exact Or.inl h1
          · exact Or.inr (Or.inr ⟨h1, starE_refl E _⟩)
  · have hmono : ∀ a b, StarE E a b → StarE (E ++ [(u, v)]) a b :=
      fun a b => starE_mono (fun e he => List.mem_append.mpr (Or.inl he))
    have huv : StarE (E ++ [(u, v)]) u v :=
      Relation.ReflTransGen.single (Or.inl (by simp))
    rintro (h | ⟨h1, h2⟩ | ⟨h1, h2⟩)
    · exact hmono _ _ h
    · exact starE_trans (starE_trans (hmono _ _ h1) huv) (hmono _ _ h2)
    · exact starE_trans (starE_trans (hmono _ _ h1) (starE_symm huv))
        (hmono _ _ h2)

/-- Canonical representative: the minimum node index in the component. -/
noncomputable def cmin (E : List (Nat × Nat)) (x : Nat) : Nat :=
  sInf {y | StarE E x y}

lemma starE_cmin (E : List (Nat × Nat)) (x : Nat) : StarE E x (cmin E x) :=
  Nat.sInf_mem ⟨x, starE_refl E x⟩

lemma cmin_le {E : List (Nat × Nat)} {x y : Nat} (h : StarE E x y) :
    cmin E x ≤ y :=
  Nat.sInf_le h

lemma cmin_le_self (E : List (Nat × Nat)) (x : Nat) : cmin E x ≤ x :=
  cmin_le (starE_refl E x)

lemma cmin_congr {E : List (Nat × Nat)} {x y : Nat} (h : StarE E x y) :
    cmin E x = cmin E y := by
  unfold cmin
  congr 1
  ext z
  exact ⟨fun hz => starE_trans (starE_symm h) hz, fun hz => starE_trans h hz⟩

lemma cmin_cmin (E : List (Nat × Nat)) (x : Nat) :
    cmin E (cmin E x) = cmin E x :=
  (cmin_congr (starE_cmin E x)).symm

/-- The union-find invariant: the parent forest is decreasing and its
partition coincides with connectivity over the processed entries. -/
def InvUF (E : List (Nat × Nat)) (l : List Nat) : Prop :=
  Decr l ∧ ∀ x y, rootP l x = rootP l y ↔ StarE E x y

lemma InvUF.rootP_eq_cmin {E : List (Nat × Nat)} {l : List Nat}
    (h : InvUF E l) (x : Nat) : rootP l x = cmin E x := by
  obtain ⟨hd, hiff⟩ := h
  have hmem : StarE E x (rootP l x) :=
    (hiff x (rootP l x)).mp (rootP_rootP hd x).symm
  have h1 : cmin E x ≤ rootP l x := cmin_le hmem
  have h2 : rootP l x ≤ cmin E x := by
    have := (hiff x (cmin E x)).mpr (starE_cmin E x)
    calc rootP l x = rootP l (cmin E x) := this
    _ ≤ cmin E x := rootP_le hd _
  omega

lemma rootP_grandparent {l : List Nat} (hd : Decr l) {i : Nat}
    (h : ¬ isRoot l i) : rootP l (par l (par l i)) = rootP l i := by
  rw [rootP_step hd h]
  by_cases hroot : isRoot l (par l i)
  · have hgp : par l (par l i) = par l i := hroot
    rw [hgp]
  · rw [rootP_step hd hroot]

/-- Linking the two classes of `a` and `b` realizes connectivity with the
entry `(a, b)` appended: the collapsed partition map matches `StarE`. -/
lemma invUF_link_iff {E : List (Nat × Nat)} {l : List Nat} (h : InvUF E l)
    {a b ra rb : Nat} (hra : ra = rootP l a) (hrb : rb = rootP l b)
    (x y : Nat) :
    ((if rootP l x = max ra rb then min ra rb else rootP l x) =
      (if rootP l y = max ra rb then min ra rb else rootP l y)) ↔
      StarE (E ++ [(a, b)]) x y := by
  have hExt : StarE (E ++ [(a, b)]) x y ↔
      (rootP l x = rootP l y ∨ (rootP l x = ra ∧ rb = rootP l y) ∨
        (rootP l x = rb ∧ ra = rootP l y)) := by
    rw [starE_append_single]
    have h1 : StarE E x y ↔ rootP l x = rootP l y := (h.2 x y).symm
    have h2 : StarE E x a ↔ rootP l x = ra := by
      rw [hra]
      exact (h.2 x a).symm
    have h3 : StarE E b y ↔ rb = rootP l y := by
      rw [hrb]
      exact (h.2 b y).symm
    have h4 : StarE E x b ↔ rootP l x = rb := by
      rw [hrb]
      exact (h.2 x b).symm
    have h5 : StarE E a y ↔ ra = rootP l y := by
      rw [hra]
      exact (h.2 a y).symm
    rw [h1, h2, h3, h4, h5]
  rw [hExt]
  rcases Nat.le_total ra rb with hle | hle
  · rw [max_eq_right hle, min_eq_left hle]
    by_cases hx : rootP l x = rb <;> by_cases hy : rootP l y = rb <;>
      simp [hx, hy] <;> omega
  · rw [max_eq_left hle, min_eq_right hle]
    by_cases hx : rootP l x = ra <;> by_cases hy : rootP l y = ra <;>
      simp [hx, hy] <;> omega

lemma par_range (n x : Nat) : par (List.range n) x = x := by
  unfold par
  by_cases hx : x < n
  · rw [List.getD_eq_getElem?_getD, List.getElem?_range hx]
    rfl
  · rw [List.getD_eq_getElem?_getD, List.getElem?_eq_none (by simpa using hx)]
    rfl

lemma decr_range (n : Nat) : Decr (List.range n) := by
  intro x
  rw [par_range]

lemma invUF_range (n : Nat) : InvUF [] (List.range n) := by
  refine ⟨decr_range n, fun x y => ?_⟩
  rw [rootP_eq_self_of_isRoot (par_range n x), rootP_eq_self_of_isRoot
    (par_range n y), starE_nil]

/-- Root count: the embedding of the final loop counting `label[i] == i`. -/
def countRoots (n : Nat) (l : List Nat) : Nat :=
  ((List.range n).filter (fun i => l.getD i i = i)).length

namespace Seq

/-- Fueled embedding of `find_root_halving` from cc_sequential.c:
`while (label[i] != i) { label[i] = label[label[i]]; i = label[i]; }`. -/
def find_root_halving : Nat → List Nat → Nat → List Nat × Nat
  | 0, l, i => (l, i)
  | fuel + 1, l, i =>
    if par l i = i then (l, i)
    else
      let l' := l.set i (par l (par l i))
      find_root_halving fuel l' (par l' i)

lemma find_root_halving_spec :
    ∀ (fuel : Nat) (l : List Nat) (i : Nat), Decr l → i < fuel →
      (find_root_halving fuel l i).2 = rootP l i ∧
      Decr (find_root_halving fuel l i).1 ∧
      (find_root_halving fuel l i).1.length = l.length ∧
      ∀ x, rootP (find_root_halving fuel l i).1 x = rootP l x := by
  intro fuel
  induction fuel with
  | zero => intro l i _ hi; omega
  | succ f ih =>
    intro l i hd hi
    rw [find_root_halving]
    by_cases hr : par l i = i
    · rw [if_pos hr]
      exact ⟨(rootP_eq_self_of_isRoot hr).symm, hd, rfl, fun x => rfl⟩
    · rw [if_neg hr]
      have hilen : i < l.length := lt_length_of_not_isRoot hr
      have hd' : Decr (l.set i (par l (par l i))) := decr_set_grandparent hd i
      have hpres := rootP_set_grandparent hd hr
      have hg : par (l.set i (par l (par l i))) i = par l (par l i) := by
        rw [par_set, if_pos ⟨rfl, hilen⟩]
      have hglt : par l (par l i) < i :=
        lt_of_le_of_lt (hd (par l i)) (par_lt_of_not_isRoot hd hr)
      have := ih (l.set i (par l (par l i))) (par (l.set i (par l (par l i))) i)
        hd' (by rw [hg]; omega)
      obtain ⟨h2, hdec, hlen, hall⟩ := this
      refine ⟨?_, hdec, by rw [hlen, List.length_set], fun x => ?_⟩
      · rw [h2, hg, hpres, rootP_grandparent hd hr]
      · rw [hall x, hpres]

/-- Embedding of `union_nodes_by_index`: two halving finds, then attach the
larger root below the smaller. -/
def union_nodes_by_index (l : List Nat) (i j : Nat) : List Nat × Nat :=
  let fi := find_root_halving l.length l i
  let fj := find_root_halving fi.1.length fi.1 j
  if fi.2 = fj.2 then (fj.1, 0)
  else if fi.2 < fj.2 then (fj.1.set fj.2 fi.2, 1)
  else (fj.1.set fi.2 fj.2, 1)

/-- One union step: connectivity gains exactly the processed entry. -/
lemma union_step {E : List (Nat × Nat)} {l : List Nat} (h : InvUF E l)
    {a b : Nat} (ha : a < l.length) (hb : b < l.length) :
    InvUF (E ++ [(a, b)]) (union_nodes_by_index l a b).1 ∧
      (union_nodes_by_index l a b).1.length = l.length := by
  obtain ⟨hd, hiff⟩ := h
  unfold union_nodes_by_index
  obtain ⟨hfa2, hfad, hfal, hfap⟩ := find_root_halving_spec l.length l a hd ha
  set l1 := (find_root_halving l.length l a).1 with hl1
  set ra := (find_root_halving l.length l a).2 with hra
  obtain ⟨hfb2, hfbd, hfbl, hfbp⟩ :=
    find_root_halving_spec l1.length l1 b hfad (by omega)
  set l2 := (find_root_halving l1.length l1 b).1 with hl2
  set rb := (find_root_halving l1.length l1 b).2 with hrb
  have hralt : ra = rootP l a := hfa2
  have hrblt : rb = rootP l b := by rw [hfb2, hfap]
  have hrootP2 : ∀ x, rootP l2 x = rootP l x := fun x => by
    rw [hfbp, hfap]
  have hlen2 : l2.length = l.length := by rw [hfbl, hfal]
  have hinv2 : InvUF E l2 := ⟨hfbd, fun x y => by
    rw [hrootP2, hrootP2]; exact hiff x y⟩
  have hlink := @invUF_link_iff E l2 hinv2 a b ra rb
    (by rw [hralt, ← hrootP2]) (by rw [hrblt, ← hrootP2])
  by_cases heq : ra = rb
  · rw [if_pos heq]
    refine ⟨⟨hfbd, fun x y => ?_⟩, hlen2⟩
    have := hlink x y
    rw [heq] at this
    simp only [max_self, min_self] at this
    rw [← this]
    by_cases hx : rootP l2 x = rb <;> by_cases hy : rootP l2 y = rb <;>
      simp [hx, hy]
  · have hrootRa : isRoot l2 ra := by
      rw [isRoot_iff_rootP hfbd, hrootP2, hralt, rootP_rootP hd]
    have hrootRb : isRoot l2 rb := by
      rw [isRoot_iff_rootP hfbd, hrootP2, hrblt, rootP_rootP hd]
    have hmaxlen : max ra rb < l2.length := by
      have h1 : ra ≤ a := by rw [hralt]; exact rootP_le hd a
      have h2 : rb ≤ b := by rw [hrblt]; exact rootP_le hd b
      rw [hlen2]
      rcases Nat.le_total ra rb with hle | hle
      · rw [max_eq_right hle]; omega
      · rw [max_eq_left hle]; omega
    rw [if_neg heq]
    by_cases hlt : ra < rb
    · rw [if_pos hlt]
      have hset := rootP_set_link hfbd hrootRa hrootRb hlt
        (lt_of_le_of_lt (le_max_right ra rb) hmaxlen)
      refine ⟨⟨decr_set_link hfbd hlt, fun x y => ?_⟩, by
        rw [List.length_set, hlen2]⟩
      rw [hset x, hset y, ← hlink x y, max_eq_right (le_of_lt hlt),
        min_eq_left (le_of_lt hlt)]
    · have hlt' : rb < ra := by omega
      rw [if_neg hlt]
      have hset := rootP_set_link hfbd hrootRb hrootRa hlt'
        (lt_of_le_of_lt (le_max_left ra rb) hmaxlen)
      refine ⟨⟨decr_set_link hfbd hlt', fun x y => ?_⟩, by
        rw [List.length_set, hlen2]⟩
      rw [hset x, hset y, ← hlink x y, max_eq_left (le_of_lt hlt'),
        min_eq_right (le_of_lt hlt')]

end Seq

lemma col_ptr_le_nnz {M : CSCBinaryMatrix} (hv : M.Valid) :
    ∀ k c, c + k = M.ncols → M.col_ptr.getD c 0 ≤ M.nnz := by
  intro k
  induction k with
  | zero =>
    intro c hc
    rw [Nat.add_zero] at hc
    rw [hc, hv.2.2.2.2.1]
  | succ k ih =>
    intro c hc
    have h1 : M.col_ptr.getD c 0 ≤ M.col_ptr.getD (c + 1) 0 :=
      hv.2.2.2.2.2.1 c (by omega)
    have h2 := ih (c + 1) (by omega)
    omega

lemma edges_mem {M : CSCBinaryMatrix} (hv : M.Valid) :
    ∀ e ∈ edges M, e.1 < M.nrows ∧ e.2 < M.nrows := by
  intro e he
  unfold edges at he
  rw [List.mem_flatMap] at he
  obtain ⟨c, hc, he⟩ := he
  rw [List.mem_range] at hc
  rw [List.mem_map] at he
  obtain ⟨r, hr, rfl⟩ := he
  have hcn : c < M.nrows := by rw [hv.1]; exact hc
  refine ⟨?_, hcn⟩
  unfold colRows at hr
  rw [List.mem_map] at hr
  obtain ⟨j, hj, rfl⟩ := hr
  rw [List.mem_range'] at hj
  have hend : M.col_ptr.getD (c + 1) 0 ≤ M.nnz :=
    col_ptr_le_nnz hv (M.ncols - c - 1) (c + 1) (by omega)
  have hjlen : j < M.row_idx.length := by
    rw [hv.2.2.1]
    omega
  have hmem : M.row_idx.getD j 0 ∈ M.row_idx := by
    rw [List.getD_eq_getElem?_getD, List.getElem?_eq_getElem hjlen]
    exact List.getElem_mem hjlen
  exact hv.2.2.2.2.2.2 _ hmem

/-- Connectivity only depends on the adjacency relation of the entry list. -/
lemma starE_congr {E E' : List (Nat × Nat)}
    (h : ∀ a b, adjE E a b ↔ adjE E' a b) :
    ∀ x y, StarE E x y ↔ StarE E' x y := by
  have half : ∀ (F F' : List (Nat × Nat)),
      (∀ a b, adjE F a b ↔ adjE F' a b) →
      ∀ x y, StarE F x y → StarE F' x y := by
    intro F F' hFF x y hxy
    induction hxy with
    | refl => exact starE_refl F' x
    | tail _ hstep ih =>
      exact Relation.ReflTransGen.tail ih ((hFF _ _).mp hstep)
  exact fun x y => ⟨half E E' h x y, half E' E (fun a b => (h a b).symm) x y⟩

lemma adjE_swap_head {E2 : List (Nat × Nat)} {u v : Nat}
    (E1 : List (Nat × Nat)) (a b : Nat) :
    adjE (E1 ++ (u, v) :: E2) a b ↔ adjE (E1 ++ (v, u) :: E2) a b := by
  unfold adjE
  simp only [List.mem_append, List.mem_cons, Prod.mk.injEq]
  tauto

lemma invUF_congr {E E' : List (Nat × Nat)} {l : List Nat}
    (h : ∀ a b, adjE E a b ↔ adjE E' a b) (hinv : InvUF E l) : InvUF E' l :=
  ⟨hinv.1, fun x y => (hinv.2 x y).trans (starE_congr h x y)⟩

namespace Seq

/-- Invariant of the edge-processing loop of the sequential union-find:
each processed entry `(r, c)` performs `union_nodes_by_index(label, c, r)`. -/
lemma unionPhase_invUF :
    ∀ (es E0 : List (Nat × Nat)) (l : List Nat), InvUF E0 l →
      (∀ e ∈ es, e.1 < l.length ∧ e.2 < l.length) →
      InvUF (E0 ++ es)
        (es.foldl (fun l e => (union_nodes_by_index l e.2 e.1).1) l) ∧
      (es.foldl (fun l e => (union_nodes_by_index l e.2 e.1).1) l).length =
        l.length := by
  intro es
  induction es with
  | nil =>
    intro E0 l h _
    rw [List.append_nil]
    exact ⟨h, rfl⟩
  | cons e es ih =>
    intro E0 l h hbound
    rw [List.foldl_cons]
    have he := hbound e (List.mem_cons_self e es)
    have hstep := union_step h (a := e.2) (b := e.1) he.2 he.1
    have hstep' : InvUF (E0 ++ [(e.1, e.2)]) (union_nodes_by_index l e.2 e.1).1 :=
      invUF_congr (adjE_swap_head E0) hstep.1
    have hb' : ∀ e' ∈ es, e'.1 < (union_nodes_by_index l e.2 e.1).1.length ∧
        e'.2 < (union_nodes_by_index l e.2 e.1).1.length := by
      intro e' he'
      rw [hstep.2]
      exact hbound e' (List.mem_cons_of_mem e he')
    obtain ⟨hinv, hlen⟩ := ih (E0 ++ [(e.1, e.2)]) _ hstep' hb'
    constructor
    · have : E0 ++ [(e.1, e.2)] ++ es = E0 ++ e :: es := by
        rw [List.append_assoc]
        rfl
      rw [← this]
      exact hinv
    · rw [hlen, hstep.2]

/-- Closed form of a halving find once every lower index is flattened. -/
lemma find_root_halving_flat {l : List Nat} (hd : Decr l) {k : Nat}
    (hk : k < l.length) (hbelow : ∀ i, i < k → par l i = rootP l i)
    {fuel : Nat} (hfuel : 0 < fuel) :
    find_root_halving fuel l k =
      (if par l k = k then l else l.set k (rootP l k), rootP l k) := by
  obtain ⟨f, rfl⟩ : ∃ f, fuel = f + 1 := ⟨fuel - 1, by omega⟩
  rw [find_root_halving]
  by_cases hr : par l k = k
  · rw [if_pos hr, if_pos hr, rootP_eq_self_of_isRoot hr]
  · rw [if_neg hr, if_neg hr]
    have hp : par l k < k := par_lt_of_not_isRoot hd hr
    have hgp : par l (par l k) = rootP l k := by
      rw [hbelow (par l k) hp, ← rootP_step hd hr]
    have hrlt : rootP l k < k := by
      have := rootP_le hd (par l k)
      rw [← rootP_step hd hr] at this
      omega
    have hpar' : par (l.set k (rootP l k)) k = rootP l k := by
      rw [par_set, if_pos ⟨rfl, hk⟩]
    have hroot' : isRoot (l.set k (rootP l k)) (rootP l k) := by
      unfold isRoot
      rw [par_set, if_neg (by omega)]
      exact rootP_isRoot hd k
    rw [hgp]
    show find_root_halving f (l.set k (rootP l k))
      (par (l.set k (rootP l k)) k) = (l.set k (rootP l k), rootP l k)
    rw [hpar']
    cases f with
    | zero => rfl
    | succ f' =>
      have hroot'' : par (l.set k (rootP l k)) (rootP l k) = rootP l k := hroot'
      rw [find_root_halving, if_pos hroot'']

/-- After the ascending flattening pass every entry holds its root. -/
lemma flattenPhase_spec {l : List Nat} (hd : Decr l) :
    ∀ n, n ≤ l.length →
      Decr ((List.range n).foldl
          (fun l i => (find_root_halving l.length l i).1) l) ∧
      ((List.range n).foldl
          (fun l i => (find_root_halving l.length l i).1) l).length =
        l.length ∧
      (∀ x, rootP ((List.range n).foldl
          (fun l i => (find_root_halving l.length l i).1) l) x = rootP l x) ∧
      ∀ i, i < n → par ((List.range n).foldl
          (fun l i => (find_root_halving l.length l i).1) l) i = rootP l i := by
  intro n
  induction n with
  | zero =>
    intro _
    exact ⟨hd, rfl, fun x => rfl, fun i hi => by omega⟩
  | succ n ih =>
    intro hn
    obtain ⟨hdk, hlk, hpk, hbk⟩ := ih (by omega)
    set lk := (List.range n).foldl
      (fun l i => (find_root_halving l.length l i).1) l with hlkdef
    rw [List.range_succ, List.foldl_append, List.foldl_cons, List.foldl_nil]
    have hklen : n < lk.length := by omega
    have hbelow : ∀ i, i < n → par lk i = rootP lk i := by
      intro i hi
      rw [hbk i hi, ← hpk i]
    have hflat := @find_root_halving_flat lk hdk n hklen hbelow lk.length (by omega)
    have hflat1 : (find_root_halving lk.length lk n).1 =
        if par lk n = n then lk else lk.set n (rootP lk n) := by
      rw [hflat]
    rw [hflat1]
    by_cases hr : par lk n = n
    · rw [if_pos hr]
      refine ⟨hdk, by omega, hpk, fun i hi => ?_⟩
      by_cases hin : i < n
      · exact hbelow i hin |>.trans (hpk i)
      · have : i = n := by omega
        subst this
        rw [hr, ← hpk i, rootP_eq_self_of_isRoot hr]
    · rw [if_neg hr]
      have hgp : rootP lk n = par lk (par lk n) := by
        have hp : par lk n < n := par_lt_of_not_isRoot hdk hr
        rw [hbelow (par lk n) hp, ← rootP_step hdk hr]
      refine ⟨?_, ?_, ?_, ?_⟩
      · rw [hgp]
        exact decr_set_grandparent hdk n
      · rw [List.length_set]
        omega
      · intro x
        rw [hgp, rootP_set_grandparent hdk hr x, hpk x]
      · intro i hi
        rw [par_set]
        by_cases hin : i = n
        · subst hin
          rw [if_pos ⟨rfl, hklen⟩, ← hpk i]
        · rw [if_neg (by tauto)]
          have : i < n := by omega
          rw [hbelow i this, hpk i]

/-- Embedding of the sequential `cc_union_find`: init, union over all stored
entries, flattening pass, root count. -/
def cc_union_find (M : CSCBinaryMatrix) : Int :=
  Int.ofNat (countRoots M.nrows
    ((List.range M.nrows).foldl (fun l i => (find_root_halving l.length l i).1)
      ((edges M).foldl (fun l e => (union_nodes_by_index l e.2 e.1).1)
        (List.range M.nrows))))

end Seq

/-- The reference count: number of canonical representatives, that is of
nodes that are the minimum of their own component. -/
noncomputable def minCount (E : List (Nat × Nat)) (n : Nat) : Nat :=
  @Finset.card Nat (@Finset.filter Nat (fun i => cmin E i = i)
    (Classical.decPred _) (Finset.range n))

lemma length_filter_range (n : Nat) (p : Nat → Bool) :
    ((List.range n).filter p).length =
      @Finset.card Nat (@Finset.filter Nat (fun i => p i = true)
        (fun i => instDecidableEqBool (p i) true) (Finset.range n)) := by
  induction n with
  | zero => rfl
  | succ n ih =>
    rw [List.range_succ, List.filter_append, List.length_append,
      Finset.range_succ, Finset.filter_insert]
    by_cases hp : p n = true
    · rw [if_pos hp, Finset.card_insert_of_not_mem (by
        intro hmem
        exact absurd (Finset.mem_of_mem_filter n hmem) (by simp))]
      simp only [List.filter_cons, hp, if_pos, List.filter_nil]
      rw [ih]
      simp
    · rw [if_neg hp]
      simp only [List.filter_cons, hp]
      simp only [Bool.false_eq_true, if_false, List.filter_nil,
        List.length_nil, Nat.add_zero]
      rw [ih]

lemma countRoots_eq_minCount {E : List (Nat × Nat)} {l : List Nat}
    (h : InvUF E l) (n : Nat) : countRoots n l = minCount E n := by
  unfold countRoots minCount
  rw [length_filter_range]
  congr 1
  ext i
  simp only [Finset.mem_filter]
  have h1 : ((fun i => decide (l.getD i i = i)) i = true) ↔ isRoot l i := by
    unfold isRoot par
    simp
  rw [h1, isRoot_iff_rootP h.1, h.rootP_eq_cmin i]

/-- The sequential union-find computes the number of components of the
stored-entry graph. -/
lemma cc_union_find_eq_minCount {M : CSCBinaryMatrix} (hv : M.Valid) :
    Seq.cc_union_find M = Int.ofNat (minCount (edges M) M.nrows) := by
  unfold Seq.cc_union_find
  have h0 : InvUF [] (List.range M.nrows) := invUF_range M.nrows
  have hlen0 : (List.range M.nrows).length = M.nrows := List.length_range _
  have hb : ∀ e ∈ edges M, e.1 < (List.range M.nrows).length ∧
      e.2 < (List.range M.nrows).length := by
    intro e he
    rw [hlen0]
    exact edges_mem hv e he
  obtain ⟨hinv1, hlen1⟩ := Seq.unionPhase_invUF (edges M) [] _ h0 hb
  rw [List.nil_append] at hinv1
  set l1 := (edges M).foldl (fun l e => (Seq.union_nodes_by_index l e.2 e.1).1)
    (List.range M.nrows) with hl1
  obtain ⟨hd2, hlen2, hp2, _⟩ := Seq.flattenPhase_spec hinv1.1 M.nrows
    (by omega)
  set l2 := (List.range M.nrows).foldl
    (fun l i => (Seq.find_root_halving l.length l i).1) l1 with hl2
  have hinv2 : InvUF (edges M) l2 :=
    ⟨hd2, fun x y => by rw [hp2 x, hp2 y]; exact hinv1.2 x y⟩
  rw [countRoots_eq_minCount hinv2]

/-- Sum of a label array; the termination measure of label propagation. -/
def sumL (l : List Nat) : Nat := l.sum

lemma sumL_set_le {l : List Nat} {j v : Nat} (hv : v ≤ par l j) :
    sumL (l.set j v) ≤ sumL l := by
  unfold sumL
  by_cases hj : j < l.length
  · rw [List.sum_set]
    have hpar : par l j = l[j] := List.getD_eq_getElem l j hj
    have hdecomp : l.sum = (l.take j).sum + (l[j] + (l.drop (j + 1)).sum) := by
      conv_lhs => rw [← List.sum_take_add_sum_drop l j,
        List.drop_eq_getElem_cons hj]
      rw [List.sum_cons]
    rw [hdecomp, if_pos hj]
    omega
  · rw [List.set_eq_of_length_le (by omega)]

lemma sumL_set_lt {l : List Nat} {j v : Nat} (hj : j < l.length)
    (hv : v < par l j) : sumL (l.set j v) < sumL l := by
  unfold sumL
  rw [List.sum_set]
  have hpar : par l j = l[j] := List.getD_eq_getElem l j hj
  have hdecomp : l.sum = (l.take j).sum + (l[j] + (l.drop (j + 1)).sum) := by
    conv_lhs => rw [← List.sum_take_add_sum_drop l j,
      List.drop_eq_getElem_cons hj]
    rw [List.sum_cons]
  rw [hdecomp, if_pos hj]
  omega

namespace Seq

/-- Embedding of `swap_min` from cc_sequential.c: propagate the smaller of
the two labels to the cell holding the larger one. -/
def swap_min (l : List Nat) (i j : Nat) : List Nat × Bool :=
  if par l i = par l j then (l, false)
  else if par l i < par l j then (l.set j (par l i), true)
  else (l.set i (par l j), true)

/-- One full sweep of the edge loops of `cc_label_propegation`, threading
the label array and the changed flag. -/
def lpSweep (M : CSCBinaryMatrix) (l : List Nat) : List Nat × Bool :=
  (edges M).foldl
    (fun acc e =>
      ((swap_min acc.1 e.2 e.1).1, acc.2 || (swap_min acc.1 e.2 e.1).2))
    (l, false)

/-- The invariant of label propagation: labels never exceed their index and
each label is connected to its node. -/
def LPInv (E : List (Nat × Nat)) (l : List Nat) : Prop :=
  Decr l ∧ ∀ i, StarE E (par l i) i

lemma swap_min_spec {E : List (Nat × Nat)} {l : List Nat} {c r : Nat}
    (he : adjE E c r) (hc : c < l.length) (hr : r < l.length)
    (hinv : LPInv E l) :
    LPInv E (swap_min l c r).1 ∧
    (swap_min l c r).1.length = l.length ∧
    sumL (swap_min l c r).1 ≤ sumL l ∧
    ((swap_min l c r).2 = false → (swap_min l c r).1 = l ∧ par l c = par l r) ∧
    ((swap_min l c r).2 = true → sumL (swap_min l c r).1 < sumL l) := by
  obtain ⟨hd, hin⟩ := hinv
  unfold swap_min
  by_cases heq : par l c = par l r
  · rw [if_pos heq]
    exact ⟨⟨hd, hin⟩, rfl, le_refl _, fun _ => ⟨rfl, heq⟩, fun h => by
      simp at h⟩
  · rw [if_neg heq]
    by_cases hlt : par l c < par l r
    · rw [if_pos hlt]
      refine ⟨⟨?_, ?_⟩, List.length_set .., sumL_set_le (by omega), fun h => by
        simp at h, fun _ => sumL_set_lt hr hlt⟩
      · intro x
        rw [par_set]
        by_cases hx : x = r ∧ r < l.length
        · rw [if_pos hx]
          have h1 := hd r
          omega
        · rw [if_neg hx]
          exact hd x
      · intro i
        rw [par_set]
        by_cases hx : i = r ∧ r < l.length
        · rw [if_pos hx]
          have h1 : StarE E (par l c) c := hin c
          have h2 : StarE E c r := Relation.ReflTransGen.single he
          rw [hx.1]
          exact starE_trans h1 h2
        · rw [if_neg hx]
          exact hin i
    · rw [if_neg hlt]
      have hlt' : par l r < par l c := by omega
      refine ⟨⟨?_, ?_⟩, List.length_set .., sumL_set_le (by omega), fun h => by
        simp at h, fun _ => sumL_set_lt hc hlt'⟩
      · intro x
        rw [par_set]
        by_cases hx : x = c ∧ c < l.length
        · rw [if_pos hx]
          have h1 := hd c
          omega
        · rw [if_neg hx]
          exact hd x
      · intro i
        rw [par_set]
        by_cases hx : i = c ∧ c < l.length
        · rw [if_pos hx]
          have h1 : StarE E (par l r) r := hin r
          have h2 : StarE E r c :=
            Relation.ReflTransGen.single (adjE_symm E he)
          rw [hx.1]
          exact starE_trans h1 h2
        · rw [if_neg hx]
          exact hin i

lemma lpSweepAux_spec {E : List (Nat × Nat)} :
    ∀ (es : List (Nat × Nat)) (l : List Nat) (b : Bool),
      (∀ e ∈ es, adjE E e.2 e.1) →
      (∀ e ∈ es, e.1 < l.length ∧ e.2 < l.length) →
      LPInv E l →
      LPInv E (es.foldl (fun acc e =>
        ((swap_min acc.1 e.2 e.1).1, acc.2 || (swap_min acc.1 e.2 e.1).2))
        (l, b)).1 ∧
      (es.foldl (fun acc e =>
        ((swap_min acc.1 e.2 e.1).1, acc.2 || (swap_min acc.1 e.2 e.1).2))
        (l, b)).1.length = l.length ∧
      sumL (es.foldl (fun acc e =>
        ((swap_min acc.1 e.2 e.1).1, acc.2 || (swap_min acc.1 e.2 e.1).2))
        (l, b)).1 ≤ sumL l ∧
      ((es.foldl (fun acc e =>
        ((swap_min acc.1 e.2 e.1).1, acc.2 || (swap_min acc.1 e.2 e.1).2))
        (l, b)).2 = false →
        (es.foldl (fun acc e =>
          ((swap_min acc.1 e.2 e.1).1, acc.2 || (swap_min acc.1 e.2 e.1).2))
          (l, b)).1 = l ∧ b = false ∧ ∀ e ∈ es, par l e.1 = par l e.2) ∧
      ((es.foldl (fun acc e =>
        ((swap_min acc.1 e.2 e.1).1, acc.2 || (swap_min acc.1 e.2 e.1).2))
        (l, b)).2 = true →
        b = true ∨ sumL (es.foldl (fun acc e =>
          ((swap_min acc.1 e.2 e.1).1, acc.2 || (swap_min acc.1 e.2 e.1).2))
          (l, b)).1 < sumL l) := by
  intro es
  induction es with
  | nil =>
    intro l b _ _ hinv
    refine ⟨hinv, rfl, le_refl _, ?_, fun h => Or.inl h⟩
    intro h
    exact ⟨rfl, h, fun e he => absurd he (List.not_mem_nil e)⟩
  | cons e es ih =>
    intro l b hadj hbound hinv
    rw [List.foldl_cons]
    dsimp only
    have he := hbound e (List.mem_cons_self e es)
    obtain ⟨hinv', hlen', hsum', hfalse', htrue'⟩ :=
      swap_min_spec (hadj e (List.mem_cons_self e es)) he.2 he.1 hinv
    have hbound' : ∀ e' ∈ es, e'.1 < (swap_min l e.2 e.1).1.length ∧
        e'.2 < (swap_min l e.2 e.1).1.length := by
      intro e' he'
      rw [hlen']
      exact hbound e' (List.mem_cons_of_mem e he')
    obtain ⟨ih1, ih2, ih3, ih4, ih5⟩ := ih (swap_min l e.2 e.1).1
      (b || (swap_min l e.2 e.1).2) (fun e' he' =>
        hadj e' (List.mem_cons_of_mem e he')) hbound' hinv'
    refine ⟨ih1, by omega, by omega, ?_, ?_⟩
    · intro hflag
      obtain ⟨hres, hflag', hall⟩ := ih4 hflag
      have hb : b = false := by
        cases b
        · rfl
        · simp at hflag'
      have hch : (swap_min l e.2 e.1).2 = false := by
        cases hsw : (swap_min l e.2 e.1).2
        · rfl
        · rw [hb, hsw] at hflag'
          simp at hflag'
      obtain ⟨hunch, hpar⟩ := hfalse' hch
      refine ⟨by rw [hres, hunch], hb, fun e' he' => ?_⟩
      rcases List.mem_cons.mp he' with rfl | he''
      · exact hpar.symm
      · have := hall e' he''
        rw [hunch] at this
        exact this
    · intro hflag
      rcases ih5 hflag with hb' | hlt
      · rcases Bool.eq_false_or_eq_true b with hb | hb
        · exact Or.inl hb
        · right
          have hch : (swap_min l e.2 e.1).2 = true := by
            rw [hb] at hb'
            simpa using hb'
          have hstep := htrue' hch
          omega
      · by_cases hb : b = true
        · exact Or.inl hb
        · exact Or.inr (by omega)

lemma lpSweep_spec {M : CSCBinaryMatrix} {l : List Nat} (hv : M.Valid)
    (hlen : l.length = M.nrows) (hinv : LPInv (edges M) l) :
    LPInv (edges M) (lpSweep M l).1 ∧
    (lpSweep M l).1.length = l.length ∧
    ((lpSweep M l).2 = false → (lpSweep M l).1 = l ∧
      ∀ e ∈ edges M, par l e.1 = par l e.2) ∧
    ((lpSweep M l).2 = true → sumL (lpSweep M l).1 < sumL l) := by
  have hadj : ∀ e ∈ edges M, adjE (edges M) e.2 e.1 := by
    intro e he
    right
    simpa using he
  have hbound : ∀ e ∈ edges M, e.1 < l.length ∧ e.2 < l.length := by
    intro e he
    rw [hlen]
    exact edges_mem hv e he
  obtain ⟨h1, h2, h3, h4, h5⟩ := lpSweepAux_spec (edges M) l false hadj
    hbound hinv
  refine ⟨h1, h2, fun hf => ?_, fun ht => ?_⟩
  · obtain ⟨hres, _, hall⟩ := h4 hf
    exact ⟨hres, hall⟩
  · rcases h5 ht with hb | hlt
    · simp at hb
    · exact hlt

/-- Embedding of the do-while convergence loop of `cc_label_propegation`;
`none` models divergence when the fuel runs out (which cannot happen on a
valid matrix). -/
def lpLoop (M : CSCBinaryMatrix) : Nat → List Nat → Option (List Nat)
  | 0, _ => none
  | fuel + 1, l =>
    if (lpSweep M l).2 then lpLoop M fuel (lpSweep M l).1
    else some (lpSweep M l).1

lemma lpLoop_spec {M : CSCBinaryMatrix} (hv : M.Valid) :
    ∀ (fuel : Nat) (l : List Nat), l.length = M.nrows →
      LPInv (edges M) l → sumL l < fuel →
      ∃ lf, lpLoop M fuel l = some lf ∧ lf.length = M.nrows ∧
        LPInv (edges M) lf ∧ ∀ e ∈ edges M, par lf e.1 = par lf e.2 := by
  intro fuel
  induction fuel with
  | zero => intro l _ _ hs; omega
  | succ f ih =>
    intro l hlen hinv hs
    rw [lpLoop]
    obtain ⟨h1, h2, h3, h4⟩ := lpSweep_spec hv hlen hinv
    cases hsw : (lpSweep M l).2 with
    | false =>
      rw [if_neg Bool.false_ne_true]
      obtain ⟨hres, hall⟩ := h3 hsw
      refine ⟨(lpSweep M l).1, rfl, by omega, h1, ?_⟩
      intro e he
      rw [hres]
      exact hall e he
    | true =>
      rw [if_pos rfl]
      exact ih (lpSweep M l).1 (by omega) h1 (by have := h4 hsw; omega)

/-- At a fixed point of the sweep, every label is the canonical minimum of
its component. -/
lemma lp_fix_cmin {E : List (Nat × Nat)} {l : List Nat}
    (hinv : LPInv E l) (hfix : ∀ e ∈ E, par l e.1 = par l e.2) :
    ∀ i, par l i = cmin E i := by
  obtain ⟨hd, hin⟩ := hinv
  have hconst : ∀ x y, StarE E x y → par l x = par l y := by
    intro x y hxy
    induction hxy with
    | refl => rfl
    | @tail p q _ hstep ih =>
      rcases hstep with hmem | hmem
      · rw [ih]
        exact hfix (p, q) hmem
      · rw [ih]
        exact (hfix (q, p) hmem).symm
  intro i
  have h1 : par l i = par l (cmin E i) := hconst i _ (starE_cmin E i)
  have h2 : par l (cmin E i) ≤ cmin E i := hd _
  have h3 : StarE E (par l (cmin E i)) (cmin E i) := hin (cmin E i)
  have h4 : cmin E (cmin E i) ≤ par l (cmin E i) :=
    cmin_le (starE_symm h3)
  have h5 : cmin E (cmin E i) = cmin E i := cmin_cmin E i
  omega

/-- Adjacent-difference count over the tail of a sorted array; together with
`countUniq` this is the embedding of the final unique-count scan. -/
def adjUniq : Nat → List Nat → Nat
  | _, [] => 0
  | prev, y :: ys => (if y = prev then 0 else 1) + adjUniq y ys

/-- The unique-count loop `if (i == 0 || label[i] != label[i-1]) count++`. -/
def countUniq : List Nat → Nat
  | [] => 0
  | x :: xs => 1 + adjUniq x xs

lemma adjUniq_sorted :
    ∀ (xs : List Nat) (prev : Nat),
      List.Pairwise (fun a b => a ≤ b) (prev :: xs) →
      1 + adjUniq prev xs = (prev :: xs).toFinset.card := by
  intro xs
  induction xs with
  | nil =>
    intro prev _
    simp [adjUniq]
  | cons y ys ih =>
    intro prev hp
    have hple : prev ≤ y := (List.pairwise_cons.mp hp).1 y
      (List.mem_cons_self y ys)
    have hpall : ∀ z ∈ y :: ys, prev ≤ z := (List.pairwise_cons.mp hp).1
    have hyp : List.Pairwise (fun a b => a ≤ b) (y :: ys) :=
      (List.pairwise_cons.mp hp).2
    rw [adjUniq]
    by_cases hy : y = prev
    · subst hy
      rw [if_pos rfl]
      have := ih y hyp
      rw [List.toFinset_cons, List.toFinset_cons, Finset.insert_idem,
        ← List.toFinset_cons]
      omega
    · rw [if_neg hy]
      have hlt : prev < y := by omega
      have hnotmem : prev ∉ (y :: ys).toFinset := by
        intro hmem
        rw [List.mem_toFinset] at hmem
        have hyz : y ≤ prev := by
          rcases List.mem_cons.mp hmem with rfl | hmem'
          · exact le_refl _
          · exact ((List.pairwise_cons.mp hyp).1 prev hmem')
        omega
      rw [List.toFinset_cons, Finset.card_insert_of_not_mem hnotmem]
      have := ih y hyp
      omega

lemma countUniq_sorted {l : List Nat}
    (hs : List.Pairwise (fun a b => a ≤ b) l) :
    countUniq l = l.toFinset.card := by
  cases l with
  | nil => rfl
  | cons x xs =>
    rw [countUniq]
    exact adjUniq_sorted xs x hs

/-- Count of distinct values via sort and adjacent scan. -/
lemma countUniq_mergeSort (l : List Nat) :
    countUniq (l.mergeSort (fun a b => a ≤ b)) = l.toFinset.card := by
  have hperm : (l.mergeSort (fun a b => a ≤ b)).Perm l :=
    List.mergeSort_perm l _
  have hsorted := @List.sorted_mergeSort Nat
    (fun a b : Nat => decide (a ≤ b))
    (fun a b c hab hbc => by
      simp only [decide_eq_true_eq] at *
      omega)
    (fun a b => by
      simp only [Bool.or_eq_true, decide_eq_true_eq]
      omega) l
  have hs : List.Pairwise (fun a b : Nat => a ≤ b)
      (l.mergeSort (fun a b => a ≤ b)) := by
    refine hsorted.imp ?_
    intro a b h
    simpa using h
  rw [countUniq_sorted hs, List.toFinset_eq_of_perm _ _ hperm]

/-- Embedding of the sequential `cc_label_propegation` (source spelling):
iterate sweeps to a fixed point, sort, count unique labels. -/
def cc_label_propegation (M : CSCBinaryMatrix) : Option Int :=
  (lpLoop M (sumL (List.range M.nrows) + 1) (List.range M.nrows)).map
    (fun l => Int.ofNat (countUniq (l.mergeSort (fun a b => a ≤ b))))

end Seq

lemma labels_eq_map_cmin {E : List (Nat × Nat)} {l : List Nat}
    (h : ∀ i, par l i = cmin E i) :
    l = (List.range l.length).map (fun i => cmin E i) := by
  refine List.ext_getElem (by simp) ?_
  intro i hi hi'
  have hp : par l i = l[i] := List.getD_eq_getElem l i hi
  rw [List.getElem_map, List.getElem_range]
  rw [← hp, h i]

lemma toFinset_map_cmin (E : List (Nat × Nat)) (n : Nat) :
    ((List.range n).map (fun i => cmin E i)).toFinset.card = minCount E n := by
  unfold minCount
  congr 1
  ext x
  simp only [List.mem_toFinset, List.mem_map, List.mem_range,
    Finset.mem_filter, Finset.mem_range]
  constructor
  · rintro ⟨i, hi, rfl⟩
    exact ⟨lt_of_le_of_lt (cmin_le_self E i) hi, cmin_cmin E i⟩
  · rintro ⟨hx, hfix⟩
    exact ⟨x, hx, hfix⟩

/-- The sequential label propagation agrees with the canonical count. -/
lemma cc_label_propegation_eq_minCount {M : CSCBinaryMatrix} (hv : M.Valid) :
    Seq.cc_label_propegation M =
      some (Int.ofNat (minCount (edges M) M.nrows)) := by
  unfold Seq.cc_label_propegation
  have hinv0 : Seq.LPInv (edges M) (List.range M.nrows) := by
    refine ⟨decr_range M.nrows, fun i => ?_⟩
    rw [par_range]
    exact starE_refl _ i
  obtain ⟨lf, hrun, hlen, hinv, hfix⟩ := Seq.lpLoop_spec hv
    (sumL (List.range M.nrows) + 1) (List.range M.nrows)
    (List.length_range _) hinv0 (by omega)
  rw [hrun, Option.map_some']
  congr 1
  have hcm : ∀ i, par lf i = cmin (edges M) i :=
    Seq.lp_fix_cmin hinv (fun e he => hfix e he)
  have hlf : lf = (List.range M.nrows).map (fun i => cmin (edges M) i) := by
    have := labels_eq_map_cmin hcm
    rw [hlen] at this
    exact this
  rw [Seq.countUniq_mergeSort, hlf, toFinset_map_cmin]

lemma rootF_ge_length {l : List Nat} {x : Nat} (hx : l.length ≤ x) :
    ∀ fuel, rootF l fuel x = x := by
  intro fuel
  cases fuel with
  | zero => rfl
  | succ f =>
    rw [rootF, if_pos (par_ge_length l x hx)]

lemma set_par_self (l : List Nat) (i : Nat) : l.set i (par l i) = l := by
  by_cases hi : i < l.length
  · refine List.ext_getElem (by simp) ?_
    intro j hj hj'
    rw [List.getElem_set]
    by_cases hij : i = j
    · subst hij
      rw [if_pos rfl]
      exact (List.getD_eq_getElem l i hi).symm ▸ rfl
    · rw [if_neg hij]
  · exact List.set_eq_of_length_le (by omega)

namespace Omp

/-- Compression loop of `find_compress` from cc_openmp.c, including the
early exit `if (label[x] == next) break` that compares `label[x]` with the
value just read from `label[x]`. -/
def compressLoop : Nat → List Nat → Nat → Nat → List Nat
  | 0, l, _, _ => l
  | fuel + 1, l, x, root =>
    if x = root then l
    else
      let next := par l x
      if par l x = next then l
      else compressLoop fuel (l.set x root) next root

/-- Embedding of `find_compress`: pure root walk followed by the
compression loop. -/
def find_compress (l : List Nat) (x : Nat) : List Nat × Nat :=
  (compressLoop l.length l x (rootF l l.length x), rootF l l.length x)

/-- In a sequential execution the compression loop never writes: its early
exit always fires on the first iteration. -/
lemma compressLoop_eq (fuel : Nat) (l : List Nat) (x root : Nat) :
    compressLoop fuel l x root = l := by
  cases fuel with
  | zero => rfl
  | succ f =>
    rw [compressLoop]
    dsimp only
    by_cases hx : x = root
    · rw [if_pos hx]
    · rw [if_neg hx, if_pos rfl]

lemma find_compress_fst (l : List Nat) (x : Nat) :
    (find_compress l x).1 = l :=
  compressLoop_eq l.length l x (rootF l l.length x)

lemma find_compress_snd {l : List Nat} (hd : Decr l) (x : Nat) :
    (find_compress l x).2 = rootP l x := by
  unfold find_compress
  dsimp only
  by_cases hx : x < l.length
  · exact rootF_congr hd x l.length (x + 1) hx (by omega)
  · rw [rootF_ge_length (by omega),
      rootP_eq_self_of_isRoot (par_ge_length l x (by omega))]

lemma find_compress_eq {l : List Nat} (hd : Decr l) (x : Nat) :
    find_compress l x = (l, rootP l x) := by
  have h1 := find_compress_fst l x
  have h2 := find_compress_snd hd x
  exact Prod.ext h1 h2

/-- Embedding of the CAS retry loop of `union_rem`.  The environment lists
the interference observed by each CAS attempt: `some v` makes the attempt
fail with observed value `v` (a concurrent write), `none` (or an exhausted
environment) lets the CAS read the current state.  The result carries the
label array, the final `a`, `b`, whether the loop returned, and the number
of CAS attempts performed. -/
def union_rem_loop :
    Nat → List (Option Nat) → List Nat → Nat → Nat →
      List Nat × Nat × Nat × Bool × Nat
  | 0, _, l, a, b => (l, a, b, false, 0)
  | retriesLeft + 1, env, l, a, b =>
    let fa := find_compress l a
    let fb := find_compress fa.1 b
    if fa.2 = fb.2 then (fb.1, fa.2, fb.2, true, 0)
    else
      let a' := min fa.2 fb.2
      let b' := max fa.2 fb.2
      match env with
      | some v :: env' =>
        let r := union_rem_loop retriesLeft env' fb.1 a' v
        (r.1, r.2.1, r.2.2.1, r.2.2.2.1, r.2.2.2.2 + 1)
      | _ =>
        if par fb.1 b' = b' then (fb.1.set b' a', a', b', true, 1)
        else
          let r := union_rem_loop retriesLeft env fb.1 a' (par fb.1 b')
          (r.1, r.2.1, r.2.2.1, r.2.2.2.1, r.2.2.2.2 + 1)

/-- Embedding of `union_rem`: the CAS loop bounded by MAX_RETRIES = 10,
then the forced-union fallback (re-find both roots and, if still distinct,
store the smaller into the larger root's cell).  The second component is
the total number of CAS attempts. -/
def union_rem (env : List (Option Nat)) (l : List Nat) (a b : Nat) :
    List Nat × Nat :=
  match union_rem_loop 10 env l a b with
  | (l1, _, _, true, n) => (l1, n)
  | (l1, a1, b1, false, n) =>
    let fa := find_compress l1 a1
    let fb := find_compress fa.1 b1
    if fa.2 = fb.2 then (fb.1, n)
    else ((fb.1.set (max fa.2 fb.2) (min fa.2 fb.2)), n)

/-- In a single-threaded run (empty environment) `union_rem` reduces to a
plain link of the two roots. -/
lemma union_rem_nil_eq {l : List Nat} (hd : Decr l) (a b : Nat) :
    (union_rem [] l a b).1 =
      if rootP l a = rootP l b then l
      else l.set (max (rootP l a) (rootP l b))
        (min (rootP l a) (rootP l b)) := by
  have hloop : union_rem_loop 10 [] l a b =
      if rootP l a = rootP l b then (l, rootP l a, rootP l b, true, 0)
      else (l.set (max (rootP l a) (rootP l b))
        (min (rootP l a) (rootP l b)), min (rootP l a) (rootP l b),
        max (rootP l a) (rootP l b), true, 1) := by
    show union_rem_loop (9 + 1) [] l a b = _
    rw [union_rem_loop]
    rw [find_compress_eq hd a]
    dsimp only
    rw [find_compress_fst, find_compress_snd hd]
    by_cases heq : rootP l a = rootP l b
    · rw [if_pos heq, if_pos heq]
    · rw [if_neg heq, if_neg heq]
      have hroot : isRoot l (max (rootP l a) (rootP l b)) := by
        rcases Nat.le_total (rootP l a) (rootP l b) with hle | hle
        · rw [max_eq_right hle]
          exact rootP_isRoot hd b
        · rw [max_eq_left hle]
          exact rootP_isRoot hd a
      have hroot' : par l (max (rootP l a) (rootP l b)) =
          max (rootP l a) (rootP l b) := hroot
      rw [if_pos hroot']
  unfold union_rem
  rw [hloop]
  by_cases heq : rootP l a = rootP l b
  · rw [if_pos heq, if_pos heq]
  · rw [if_neg heq, if_neg heq]

/-- One guarded union step of the parallel union-find preserves the
union-find invariant, extending connectivity by the processed entry. -/
lemma union_rem_step {E : List (Nat × Nat)} {l : List Nat} (h : InvUF E l)
    {a b : Nat} (ha : a < l.length) (hb : b < l.length) :
    InvUF (E ++ [(a, b)]) (union_rem [] l a b).1 ∧
      (union_rem [] l a b).1.length = l.length := by
  obtain ⟨hd, hiff⟩ := h
  rw [union_rem_nil_eq hd a b]
  have hlink := @invUF_link_iff E l ⟨hd, hiff⟩ a b (rootP l a) (rootP l b) rfl rfl
  by_cases heq : rootP l a = rootP l b
  · rw [if_pos heq]
    refine ⟨⟨hd, fun x y => ?_⟩, rfl⟩
    have := hlink x y
    rw [heq] at this
    simp only [max_self, min_self] at this
    rw [← this]
    by_cases hx : rootP l x = rootP l b <;> by_cases hy : rootP l y = rootP l b <;>
      simp [hx, hy]
  · rw [if_neg heq]
    have hrla : isRoot l (rootP l a) := rootP_isRoot hd a
    have hrlb : isRoot l (rootP l b) := rootP_isRoot hd b
    have hmaxlen : max (rootP l a) (rootP l b) < l.length := by
      have h1 : rootP l a ≤ a := rootP_le hd a
      have h2 : rootP l b ≤ b := rootP_le hd b
      rcases Nat.le_total (rootP l a) (rootP l b) with hle | hle
      · rw [max_eq_right hle]; omega
      · rw [max_eq_left hle]; omega
    have hminmax : min (rootP l a) (rootP l b) < max (rootP l a) (rootP l b) := by
      rcases Nat.le_total (rootP l a) (rootP l b) with hle | hle
      · rw [max_eq_right hle, min_eq_left hle]; omega
      · rw [max_eq_left hle, min_eq_right hle]; omega
    have hrmin : isRoot l (min (rootP l a) (rootP l b)) := by
      rcases Nat.le_total (rootP l a) (rootP l b) with hle | hle
      · rw [min_eq_left hle]; exact hrla
      · rw [min_eq_right hle]; exact hrlb
    have hrmax : isRoot l (max (rootP l a) (rootP l b)) := by
      rcases Nat.le_total (rootP l a) (rootP l b) with hle | hle
      · rw [max_eq_right hle]; exact hrlb
      · rw [max_eq_left hle]; exact hrla
    have hset := rootP_set_link hd hrmin hrmax hminmax hmaxlen
    refine ⟨⟨decr_set_link hd hminmax, fun x y => ?_⟩, List.length_set ..⟩
    rw [hset x, hset y, ← hlink x y]

/-- The guarded union loop of phase 2 maintains the invariant. -/
lemma unionPhase_rem_invUF (n : Nat) :
    ∀ (es E0 : List (Nat × Nat)) (l : List Nat), InvUF E0 l →
      l.length = n →
      (∀ e ∈ es, e.1 < l.length ∧ e.2 < l.length) →
      InvUF (E0 ++ es)
        (es.foldl (fun l e =>
          if e.1 < n then (union_rem [] l e.1 e.2).1 else l) l) ∧
      (es.foldl (fun l e =>
        if e.1 < n then (union_rem [] l e.1 e.2).1 else l) l).length =
        l.length := by
  intro es
  induction es with
  | nil =>
    intro E0 l h _ _
    rw [List.append_nil]
    exact ⟨h, rfl⟩
  | cons e es ih =>
    intro E0 l h hn hbound
    rw [List.foldl_cons]
    have he := hbound e (List.mem_cons_self e es)
    rw [if_pos (by omega)]
    have hstep := union_rem_step h he.1 he.2
    have hb' : ∀ e' ∈ es, e'.1 < (union_rem [] l e.1 e.2).1.length ∧
        e'.2 < (union_rem [] l e.1 e.2).1.length := by
      intro e' he'
      rw [hstep.2]
      exact hbound e' (List.mem_cons_of_mem e he')
    obtain ⟨hinv, hlen⟩ := ih (E0 ++ [(e.1, e.2)]) _ hstep.1
      (by omega) hb'
    constructor
    · have hassoc : E0 ++ [(e.1, e.2)] ++ es = E0 ++ e :: es := by
        rw [List.append_assoc]
        rfl
      rw [← hassoc]
      exact hinv
    · rw [hlen, hstep.2]

/-- The phase-3 flattening pass is a no-op in sequential execution: it
calls the write-free `find_compress` on every index. -/
lemma flattenPhase_id (is : List Nat) :
    ∀ l : List Nat, is.foldl (fun l i => (find_compress l i).1) l = l := by
  induction is with
  | nil => intro l; rfl
  | cons i is ih =>
    intro l
    rw [List.foldl_cons, find_compress_fst]
    exact ih l

/-- Embedding of the parallel `cc_union_find` run sequentially: NULL or
`N == 0` fast path, init, guarded union phase, flattening, root count. -/
def cc_union_find (M? : Option CSCBinaryMatrix)
    (n_threads : Nat) : Int :=
  match M? with
  | none => 0
  | some M =>
    if M.nrows = 0 then 0
    else
      Int.ofNat (countRoots M.nrows
        ((List.range M.nrows).foldl (fun l i => (find_compress l i).1)
          ((edges M).foldl
            (fun l e =>
              if e.1 < M.nrows then (union_rem [] l e.1 e.2).1 else l)
            (List.range M.nrows))))

/-- The parallel union-find (sequentialized) also computes the canonical
component count. -/
lemma uf_rem_eq_minCount {M : CSCBinaryMatrix} (hv : M.Valid)
    (T : Nat) :
    cc_union_find (some M) T = Int.ofNat (minCount (edges M) M.nrows) := by
  unfold cc_union_find
  dsimp only
  by_cases hn : M.nrows = 0
  · rw [if_pos hn]
    unfold minCount
    rw [hn]
    rfl
  · rw [if_neg hn]
    have h0 : InvUF [] (List.range M.nrows) := invUF_range M.nrows
    have hlen0 : (List.range M.nrows).length = M.nrows := List.length_range _
    have hb : ∀ e ∈ edges M, e.1 < (List.range M.nrows).length ∧
        e.2 < (List.range M.nrows).length := by
      intro e he
      rw [hlen0]
      exact edges_mem hv e he
    obtain ⟨hinv1, hlen1⟩ := unionPhase_rem_invUF M.nrows (edges M) [] _ h0
      hlen0 hb
    rw [List.nil_append] at hinv1
    rw [flattenPhase_id]
    rw [countRoots_eq_minCount hinv1]

/-- One edge step of the parallel label propagation: read both labels and,
when they differ, write the minimum into both cells (column first, then
row), setting the thread-local changed flag. -/
def lpStep (l : List Nat) (c r : Nat) : List Nat × Bool :=
  if par l c = par l r then (l, false)
  else
    (((l.set c (min (par l c) (par l r))).set r (min (par l c) (par l r))),
      true)

/-- Sequentially, writing the minimum to both endpoints has the same effect
as the sequential `swap_min` (the write into the cell already holding the
minimum is the identity). -/
lemma lpStep_eq_swap_min (l : List Nat) (c r : Nat) :
    lpStep l c r = Seq.swap_min l c r := by
  unfold lpStep Seq.swap_min
  by_cases heq : par l c = par l r
  · rw [if_pos heq, if_pos heq]
  · rw [if_neg heq, if_neg heq]
    by_cases hlt : par l c < par l r
    · rw [if_pos hlt, min_eq_left (le_of_lt hlt)]
      rw [set_par_self]
    · rw [if_neg hlt]
      have hlt' : par l r < par l c := by omega
      rw [min_eq_right (le_of_lt hlt')]
      have hrc : ¬ (r = c ∧ c < l.length) := by
        rintro ⟨rfl, _⟩
        exact heq rfl
      have hpar2 : par (l.set c (par l r)) r = par l r := by
        rw [par_set, if_neg hrc]
      have key : (l.set c (par l r)).set r (par l r) =
          (l.set c (par l r)).set r (par (l.set c (par l r)) r) := by
        rw [hpar2]
      rw [key, set_par_self]

/-- One full sweep of the parallel label propagation, executed in program
order. -/
def lpSweep (M : CSCBinaryMatrix) (l : List Nat) : List Nat × Bool :=
  (edges M).foldl
    (fun acc e =>
      ((lpStep acc.1 e.2 e.1).1, acc.2 || (lpStep acc.1 e.2 e.1).2))
    (l, false)

lemma lpSweep_eq (M : CSCBinaryMatrix) (l : List Nat) :
    lpSweep M l = Seq.lpSweep M l := by
  unfold lpSweep Seq.lpSweep
  congr 1
  funext acc e
  rw [lpStep_eq_swap_min]

/-- Convergence loop of the parallel label propagation. -/
def lpLoop (M : CSCBinaryMatrix) : Nat → List Nat → Option (List Nat)
  | 0, _ => none
  | fuel + 1, l =>
    if (lpSweep M l).2 then lpLoop M fuel (lpSweep M l).1
    else some (lpSweep M l).1

lemma lpLoop_eq (M : CSCBinaryMatrix) :
    ∀ fuel l, lpLoop M fuel l = Seq.lpLoop M fuel l := by
  intro fuel
  induction fuel with
  | zero => intro l; rfl
  | succ f ih =>
    intro l
    rw [lpLoop, Seq.lpLoop, lpSweep_eq]
    by_cases h : (Seq.lpSweep M l).2 = true
    · rw [if_pos h, if_pos h, ih]
    · rw [if_neg h, if_neg h]

/-- Population count of one 64-bit word. -/
def popcount64 (w : Nat) : Nat :=
  ((List.range 64).filter (fun b => w.testBit b)).length

/-- Bitmap construction of the counting phase: for every label value set
bit `val mod 64` of word `val div 64` (as `val >>> 6` and `val &&& 63`). -/
def buildBitmap (l : List Nat) (size : Nat) : List Nat :=
  l.foldl
    (fun bm v =>
      bm.set (v >>> 6) (bm.getD (v >>> 6) 0 ||| (1 <<< (v &&& 63))))
    (List.replicate size 0)

/-- Total population count of the bitmap. -/
def bitmapCount (bm : List Nat) : Nat := (bm.map popcount64).sum

lemma bitmapFold_length (l : List Nat) :
    ∀ bm : List Nat,
      (l.foldl (fun bm v =>
        bm.set (v >>> 6) (bm.getD (v >>> 6) 0 ||| (1 <<< (v &&& 63)))) bm
        ).length = bm.length := by
  induction l with
  | nil => intro bm; rfl
  | cons v vs ih =>
    intro bm
    rw [List.foldl_cons, ih, List.length_set]

lemma bitmapFold_testBit (l : List Nat) :
    ∀ (bm : List Nat), (∀ v ∈ l, v >>> 6 < bm.length) → ∀ w b : Nat,
      ((l.foldl (fun bm v =>
        bm.set (v >>> 6) (bm.getD (v >>> 6) 0 ||| (1 <<< (v &&& 63)))) bm
        ).getD w 0).testBit b ↔
      ((bm.getD w 0).testBit b ∨ ∃ v ∈ l, v >>> 6 = w ∧ v &&& 63 = b) := by
  induction l with
  | nil =>
    intro bm _ w b
    simp
  | cons v vs ih =>
    intro bm hbound w b
    rw [List.foldl_cons]
    have hw0 : v >>> 6 < bm.length := hbound v (List.mem_cons_self v vs)
    have hb' : ∀ v' ∈ vs, v' >>> 6 <
        (bm.set (v >>> 6) (bm.getD (v >>> 6) 0 ||| (1 <<< (v &&& 63)))).length := by
      intro v' hv'
      rw [List.length_set]
      exact hbound v' (List.mem_cons_of_mem v hv')
    rw [ih _ hb' w b]
    have hset : (bm.set (v >>> 6)
        (bm.getD (v >>> 6) 0 ||| (1 <<< (v &&& 63)))).getD w 0 =
        if w = v >>> 6 then bm.getD w 0 ||| (1 <<< (v &&& 63))
        else bm.getD w 0 := by
      by_cases hw : w = v >>> 6
      · subst hw
        rw [if_pos rfl, List.getD_eq_getElem _ _ (by
            rw [List.length_set]; exact hw0)]
        rw [List.getElem_set, if_pos rfl]
      · rw [if_neg hw]
        rw [List.getD_eq_getElem?_getD, List.getElem?_set_ne (by omega),
          ← List.getD_eq_getElem?_getD]
    rw [hset]
    have hshift : (1 <<< (v &&& 63)) = 2 ^ (v &&& 63) := by
      rw [Nat.shiftLeft_eq, one_mul]
    by_cases hw : w = v >>> 6
    · rw [if_pos hw, hshift]
      simp only [Nat.testBit_lor, Nat.testBit_two_pow, Bool.or_eq_true,
        decide_eq_true_eq]
      constructor
      · rintro ((h | h) | h)
        · exact Or.inl h
        · exact Or.inr ⟨v, List.mem_cons_self v vs, hw.symm, h⟩
        · obtain ⟨v', hv', hvw, hvb⟩ := h
          exact Or.inr ⟨v', List.mem_cons_of_mem v hv', hvw, hvb⟩
      · rintro (h | h)
        · exact Or.inl (Or.inl h)
        · obtain ⟨v', hv', hvw, hvb⟩ := h
          rcases List.mem_cons.mp hv' with rfl | hv''
          · exact Or.inl (Or.inr hvb)
          · exact Or.inr ⟨v', hv'', hvw, hvb⟩
    · rw [if_neg hw]
      constructor
      · rintro (h | h)
        · exact Or.inl h
        · obtain ⟨v', hv', hvw, hvb⟩ := h
          exact Or.inr ⟨v', List.mem_cons_of_mem v hv', hvw, hvb⟩
      · rintro (h | h)
        · exact Or.inl h
        · obtain ⟨v', hv', hvw, hvb⟩ := h
          rcases List.mem_cons.mp hv' with rfl | hv''
          · exact absurd hvw.symm (by omega)
          · exact Or.inr ⟨v', hv'', hvw, hvb⟩

lemma shift_mask_identity (v : Nat) : 64 * (v >>> 6) + (v &&& 63) = v := by
  rw [Nat.shiftRight_eq_div_pow]
  have h63 : (63 : Nat) = 2 ^ 6 - 1 := by norm_num
  rw [h63, Nat.and_pow_two_sub_one_eq_mod]
  have h64 : (2 : Nat) ^ 6 = 64 := by norm_num
  rw [h64]
  omega

lemma mask_lt_64 (v : Nat) : v &&& 63 < 64 := by
  have h63 : (63 : Nat) = 2 ^ 6 - 1 := by norm_num
  rw [h63, Nat.and_pow_two_sub_one_eq_mod]
  have h64 : (2 : Nat) ^ 6 = 64 := by norm_num
  rw [h64]
  omega

lemma shift_lt_of_lt {v size : Nat} (h : v < 64 * size) : v >>> 6 < size := by
  rw [Nat.shiftRight_eq_div_pow]
  have h64 : (2 : Nat) ^ 6 = 64 := by norm_num
  rw [h64]
  omega

lemma sum_map_eq_sum_range (bm : List Nat) (f : Nat → Nat) :
    (bm.map f).sum = ∑ w ∈ Finset.range bm.length, f (bm.getD w 0) := by
  induction bm with
  | nil => rfl
  | cons v bm ih =>
    rw [List.map_cons, List.sum_cons, List.length_cons,
      Finset.sum_range_succ']
    simp only [List.getD_cons_succ, List.getD_cons_zero]
    rw [ih]
    omega

/-- The bitmap-and-popcount phase counts exactly the distinct label
values. -/
lemma bitmapCount_eq_card {l : List Nat} {size : Nat}
    (hbound : ∀ v ∈ l, v < 64 * size) :
    bitmapCount (buildBitmap l size) = l.toFinset.card := by
  set bm := buildBitmap l size with hbm
  have hlen : bm.length = size := by
    rw [hbm]
    unfold buildBitmap
    rw [bitmapFold_length, List.length_replicate]
  have hdiv : ∀ v ∈ l, v >>> 6 < size := fun v hv =>
    shift_lt_of_lt (hbound v hv)
  have hchar : ∀ w b : Nat, (bm.getD w 0).testBit b ↔
      ∃ v ∈ l, v >>> 6 = w ∧ v &&& 63 = b := by
    intro w b
    rw [hbm]
    unfold buildBitmap
    rw [bitmapFold_testBit l (List.replicate size 0) (by
      intro v hv
      rw [List.length_replicate]
      exact hdiv v hv) w b]
    have hrep : (List.replicate size (0 : Nat)).getD w 0 = 0 := by
      by_cases hw : w < size
      · rw [List.getD_eq_getElem _ _ (by
          rw [List.length_replicate]; exact hw), List.getElem_replicate]
      · rw [List.getD_eq_getElem?_getD, List.getElem?_eq_none (by
          rw [List.length_replicate]; omega)]
        rfl
    rw [hrep]
    simp
  have hsum : bitmapCount bm =
      ∑ w ∈ Finset.range size, popcount64 (bm.getD w 0) := by
    unfold bitmapCount
    rw [sum_map_eq_sum_range, hlen]
  have hpop : ∀ w, popcount64 (bm.getD w 0) =
      ((Finset.range 64).filter
        (fun b => ((fun b => (bm.getD w 0).testBit b) b) = true)).card := by
    intro w
    unfold popcount64
    rw [length_filter_range 64 (fun b => (bm.getD w 0).testBit b)]
  have hinj : ∀ w : Nat, Function.Injective (fun b => 64 * w + b) := by
    intro w b1 b2 h
    simpa using h
  have hdisj : ∀ w1 ∈ Finset.range size, ∀ w2 ∈ Finset.range size,
      w1 ≠ w2 →
      Disjoint
        (((Finset.range 64).filter
          (fun b => ((bm.getD w1 0).testBit b) = true)).image
            (fun b => 64 * w1 + b))
        (((Finset.range 64).filter
          (fun b => ((bm.getD w2 0).testBit b) = true)).image
            (fun b => 64 * w2 + b)) := by
    intro w1 _ w2 _ hne
    rw [Finset.disjoint_left]
    intro x hx1 hx2
    rw [Finset.mem_image] at hx1 hx2
    obtain ⟨b1, hb1, hx1⟩ := hx1
    obtain ⟨b2, hb2, hx2⟩ := hx2
    rw [Finset.mem_filter, Finset.mem_range] at hb1 hb2
    omega
  have hbiUnion : ((Finset.range size).biUnion (fun w =>
      ((Finset.range 64).filter
        (fun b => ((bm.getD w 0).testBit b) = true)).image
          (fun b => 64 * w + b))) = l.toFinset := by
    ext x
    rw [Finset.mem_biUnion]
    constructor
    · rintro ⟨w, hw, hx⟩
      rw [Finset.mem_image] at hx
      obtain ⟨b, hb, rfl⟩ := hx
      rw [Finset.mem_filter] at hb
      obtain ⟨v, hv, hvw, hvb⟩ := (hchar w b).mp hb.2
      rw [List.mem_toFinset]
      have : v = 64 * w + b := by
        rw [← hvw, ← hvb]
        exact (shift_mask_identity v).symm
      rw [← this]
      exact hv
    · intro hx
      rw [List.mem_toFinset] at hx
      refine ⟨x >>> 6, Finset.mem_range.mpr (hdiv x hx), ?_⟩
      rw [Finset.mem_image]
      refine ⟨x &&& 63, ?_, shift_mask_identity x⟩
      rw [Finset.mem_filter, Finset.mem_range]
      exact ⟨mask_lt_64 x, (hchar _ _).mpr ⟨x, hx, rfl, rfl⟩⟩
  rw [hsum]
  calc ∑ w ∈ Finset.range size, popcount64 (bm.getD w 0)
      = ∑ w ∈ Finset.range size,
          (((Finset.range 64).filter
            (fun b => ((bm.getD w 0).testBit b) = true)).image
              (fun b => 64 * w + b)).card := by
        refine Finset.sum_congr rfl fun w _ => ?_
        rw [hpop w, Finset.card_image_of_injective _ (hinj w)]
    _ = ((Finset.range size).biUnion (fun w =>
          ((Finset.range 64).filter
            (fun b => ((bm.getD w 0).testBit b) = true)).image
              (fun b => 64 * w + b))).card :=
        (Finset.card_biUnion hdisj).symm
    _ = l.toFinset.card := by rw [hbiUnion]

/-- Embedding of the parallel `cc_label_propagation` run sequentially.  The
C code has no NULL guard here: a NULL matrix is dereferenced immediately,
which the model renders as `none`. -/
def cc_label_propagation (M? : Option CSCBinaryMatrix)
    (n_threads : Nat) : Option Int :=
  match M? with
  | none => none
  | some M =>
    (lpLoop M (sumL (List.range M.nrows) + 1) (List.range M.nrows)).map
      (fun l =>
        Int.ofNat (bitmapCount (buildBitmap l ((M.nrows + 63) / 64))))

/-- The parallel label propagation (sequentialized) also computes the
canonical component count. -/
lemma cc_label_propagation_eq_minCount {M : CSCBinaryMatrix} (hv : M.Valid)
    (T : Nat) :
    cc_label_propagation (some M) T =
      some (Int.ofNat (minCount (edges M) M.nrows)) := by
  unfold cc_label_propagation
  dsimp only
  have hinv0 : Seq.LPInv (edges M) (List.range M.nrows) := by
    refine ⟨decr_range M.nrows, fun i => ?_⟩
    rw [par_range]
    exact starE_refl _ i
  obtain ⟨lf, hrun, hlen, hinv, hfix⟩ := Seq.lpLoop_spec hv
    (sumL (List.range M.nrows) + 1) (List.range M.nrows)
    (List.length_range _) hinv0 (by omega)
  rw [lpLoop_eq, hrun, Option.map_some']
  congr 1
  have hcm : ∀ i, par lf i = cmin (edges M) i :=
    Seq.lp_fix_cmin hinv hfix
  have hlf : lf = (List.range M.nrows).map (fun i => cmin (edges M) i) := by
    have := labels_eq_map_cmin hcm
    rw [hlen] at this
    exact this
  have hbound : ∀ v ∈ lf, v < 64 * ((M.nrows + 63) / 64) := by
    intro v hv'
    rw [hlf, List.mem_map] at hv'
    obtain ⟨i, hi, rfl⟩ := hv'
    rw [List.mem_range] at hi
    have h1 : cmin (edges M) i ≤ i := cmin_le_self _ i
    omega
  rw [bitmapCount_eq_card hbound, hlf, toFinset_map_cmin]

end Omp

/-- A MATLAB sparse field as MATIO exposes it: class and element-type
flags, rank and dimensions, and the raw sparse arrays `ir` and `jc`.
`none` upstream models a missing struct or field. -/
structure MatField where
  is_sparse : Bool
  is_double : Bool
  rank : Nat
  dims : List Nat
  ir : List Nat
  jc : List Nat

/-- Embedding of `csc_load_matrix_mat` from src/src/core/matrix.c.  `none`
models every error path (and the out-of-bounds reads when `jc`/`ir` are
shorter than the header claims).  The dimension check is the disjunction
`rank != 2 || dims[0] != dims[1]`. -/
def csc_load_matrix_mat (field? : Option MatField) : Option CSCBinaryMatrix :=
  match field? with
  | none => none
  | some f =>
    if ¬ f.is_sparse then none
    else if ¬ f.is_double then none
    else if f.rank ≠ 2 ∨ f.dims.getD 0 0 ≠ f.dims.getD 1 0 then none
    else if f.jc.length < f.dims.getD 1 0 + 1 then none
    else if f.ir.length < f.jc.getD (f.dims.getD 1 0) 0 then none
    else
      some (CSCBinaryMatrix.mk (f.dims.getD 0 0) (f.dims.getD 1 0)
        (f.jc.getD (f.dims.getD 1 0) 0)
        (f.ir.take (f.jc.getD (f.dims.getD 1 0) 0))
        (f.jc.take (f.dims.getD 1 0 + 1)))

/-- Embedding of the legacy `csc_load_matrix` from src/io.c, identical
except that its dimension check is the conjunction
`rank != 2 && dims[0] != dims[1]`. -/
def csc_load_matrix_io (field? : Option MatField) : Option CSCBinaryMatrix :=
  match field? with
  | none => none
  | some f =>
    if ¬ f.is_sparse then none
    else if ¬ f.is_double then none
    else if f.rank ≠ 2 ∧ f.dims.getD 0 0 ≠ f.dims.getD 1 0 then none
    else if f.jc.length < f.dims.getD 1 0 + 1 then none
    else if f.ir.length < f.jc.getD (f.dims.getD 1 0) 0 then none
    else
      some (CSCBinaryMatrix.mk (f.dims.getD 0 0) (f.dims.getD 1 0)
        (f.jc.getD (f.dims.getD 1 0) 0)
        (f.ir.take (f.jc.getD (f.dims.getD 1 0) 0))
        (f.jc.take (f.dims.getD 1 0 + 1)))

/-- The multi-format loader rejects any field that is not 2-D or not
square (disjunction semantics). -/
lemma csc_load_matrix_mat_rejects (f : MatField)
    (h : f.rank ≠ 2 ∨ f.dims.getD 0 0 ≠ f.dims.getD 1 0) :
    csc_load_matrix_mat (some f) = none := by
  by_cases h1 : f.is_sparse = true
  · by_cases h2 : f.is_double = true
    · rcases h with h | h
      · simp [csc_load_matrix_mat, h1, h2, h]
      · simp only [List.getD_eq_getElem?_getD] at h
        simp [csc_load_matrix_mat, h1, h2, h]
    · simp [csc_load_matrix_mat, h1, h2]
  · simp [csc_load_matrix_mat, h1]

/-- Claim C6 is refuted for the legacy loader of src/io.c: its conjunctive
check `rank != 2 && dims[0] != dims[1]` accepts a 2-D non-square (3 by 4)
sparse field and returns a constructed matrix, while the multi-format
loader of matrix.c rejects the same input. -/
theorem claim_C6_code_bug :
    csc_load_matrix_mat
      (some (MatField.mk true true 2 [3, 4] [] [0, 0, 0, 0, 0])) = none ∧
    csc_load_matrix_io
      (some (MatField.mk true true 2 [3, 4] [] [0, 0, 0, 0, 0])) =
      some (CSCBinaryMatrix.mk 3 4 0 [] [0, 0, 0, 0, 0]) ∧
    (MatField.mk true true 2 [3, 4] [] [0, 0, 0, 0, 0]).rank = 2 ∧
    (MatField.mk true true 2 [3, 4] [] [0, 0, 0, 0, 0]).dims.getD 0 0 ≠
      (MatField.mk true true 2 [3, 4] [] [0, 0, 0, 0, 0]).dims.getD 1 0 := by
  refine ⟨?_, ?_, rfl, by decide⟩
  · exact csc_load_matrix_mat_rejects _ (Or.inr (by decide))
  · rfl

/-- Matrix Market symmetry tag (the four accepted values). -/
inductive MMSymmetry where
  | general
  | symmetric
  | skew
  | hermitian
deriving DecidableEq

/-- A parsed Matrix Market coordinate file: the header flags, the size
line, and the parsed entry lines `i j [val]` (1-based indices; for
`pattern` files the loader keeps `val = 1.0`, modeled by `mmVal`). -/
structure MMCoordFile where
  is_pattern : Bool
  sym : MMSymmetry
  nrows : Nat
  ncols : Nat
  nnz : Nat
  entries : List (Nat × Nat × Int)

/-- The value the entry loop uses: 1.0 for pattern files, the parsed value
otherwise. -/
def mmVal (f : MMCoordFile) (e : Nat × Nat × Int) : Int :=
  if f.is_pattern then 1 else e.2.2

/-- The COO pairs `(row, col)` (0-based) built by the entry loop of
`csc_load_matrix_mtx`: zero values are dropped, and only for symmetry
`symmetric` is each off-diagonal entry also stored mirrored. -/
def mmCoo (f : MMCoordFile) : List (Nat × Nat) :=
  (f.entries.take f.nnz).flatMap (fun e =>
    if mmVal f e ≠ 0 then
      (e.1 - 1, e.2.1 - 1) ::
        (if f.sym = MMSymmetry.symmetric ∧ e.1 ≠ e.2.1 then
          [(e.2.1 - 1, e.1 - 1)]
        else [])
    else [])

/-- Counting pass of the COO-to-CSC conversion (`col_ptr[coo_j[k]+1]++`)
followed by the in-place prefix sum (`col_ptr[j+1] += col_ptr[j]`). -/
def buildColPtr (ncols : Nat) (coo : List (Nat × Nat)) : List Nat :=
  (List.range ncols).foldl
    (fun cp j => cp.set (j + 1) (cp.getD (j + 1) 0 + cp.getD j 0))
    (coo.foldl (fun cp e => cp.set (e.2 + 1) (cp.getD (e.2 + 1) 0 + 1))
      (List.replicate (ncols + 1) 0))

/-- One iteration of the fill loop: the entry's row index goes to position
`col_ptr[j] + col_fill[j]` of `row_idx`, and `col_fill[j]` advances. -/
def fillStep (colPtr : List Nat) (acc : List Nat × List Nat) (e : Nat × Nat) :
    List Nat × List Nat :=
  (acc.1.set (colPtr.getD e.2 0 + acc.2.getD e.2 0) e.1,
   acc.2.set e.2 (acc.2.getD e.2 0 + 1))

/-- Fill pass of the conversion (`row_idx` starts as a fresh allocation,
modeled zero-initialized; `col_fill` is calloc'd). -/
def fillRowIdx (ncols : Nat) (colPtr : List Nat) (total : Nat)
    (coo : List (Nat × Nat)) : List Nat :=
  (coo.foldl (fillStep colPtr)
    (List.replicate total 0, List.replicate ncols 0)).1

/-- Embedding of the coordinate branch of `csc_load_matrix_mtx`.  `none`
models the error paths: a short entry list (the fscanf failure) and inputs
on which the conversion writes out of bounds (a stored column index at or
beyond `ncols`, undefined behavior in the C).  Row indices are never
checked. -/
def csc_load_matrix_mtx_coord (f : MMCoordFile) : Option CSCBinaryMatrix :=
  if f.entries.length < f.nnz then none
  else if (mmCoo f).any (fun e => f.ncols ≤ e.2) then none
  else
    some (CSCBinaryMatrix.mk f.nrows f.ncols (mmCoo f).length
      (fillRowIdx f.ncols (buildColPtr f.ncols (mmCoo f)) (mmCoo f).length
        (mmCoo f))
      (buildColPtr f.ncols (mmCoo f)))

/-- Column-bucketed view of a COO list: the stored entries of the
converted matrix in column-major, stable order. -/
def cooBuckets (n : Nat) (coo : List (Nat × Nat)) : List (Nat × Nat) :=
  (List.range n).flatMap
    (fun c => (coo.filter (fun e => e.2 = c)).map (fun e => (e.1, c)))

/-- Entries of column `c` of a COO list. -/
def countCol (coo : List (Nat × Nat)) (j : Nat) : Nat :=
  (coo.filter (fun e => e.2 = j)).length

lemma getD_set_zero (l : List Nat) (i v j : Nat) :
    (l.set i v).getD j 0 = if j = i ∧ i < l.length then v else l.getD j 0 := by
  by_cases hj : j = i
  · subst hj
    by_cases hlen : j < l.length
    · simp only [hlen, and_true, if_pos rfl]
      rw [List.getD_eq_getElem?_getD, List.getElem?_set_self hlen]
      rfl
    · have heq : l.set j v = l := List.set_eq_of_length_le (by omega)
      simp [heq, hlen]
  · simp only [hj, false_and, if_false]
    rw [List.getD_eq_getElem?_getD, List.getElem?_set_ne (by omega),
      ← List.getD_eq_getElem?_getD]

lemma getD_replicate_zero (n j : Nat) : (List.replicate n 0).getD j 0 = 0 := by
  by_cases hj : j < n
  · rw [List.getD_eq_getElem _ _ (by simpa using hj), List.getElem_replicate]
  · rw [List.getD_eq_getElem?_getD, List.getElem?_eq_none (by simpa using hj)]
    rfl

lemma countCol_nil (j : Nat) : countCol [] j = 0 := rfl

lemma countCol_cons (e : Nat × Nat) (es : List (Nat × Nat)) (j : Nat) :
    countCol (e :: es) j = (if e.2 = j then 1 else 0) + countCol es j := by
  unfold countCol
  rw [List.filter_cons]
  by_cases h : e.2 = j
  · simp [h]
    omega
  · simp [h]

lemma countCol_append (l1 l2 : List (Nat × Nat)) (j : Nat) :
    countCol (l1 ++ l2) j = countCol l1 j + countCol l2 j := by
  unfold countCol
  rw [List.filter_append, List.length_append]

lemma countPhase_length :
    ∀ (coo : List (Nat × Nat)) (cp : List Nat),
      (coo.foldl (fun cp e => cp.set (e.2 + 1) (cp.getD (e.2 + 1) 0 + 1)) cp).length
        = cp.length := by
  intro coo
  induction coo with
  | nil => intro cp; rfl
  | cons e es ih =>
    intro cp
    rw [List.foldl_cons, ih, List.length_set]

lemma countPhase_getD :
    ∀ (coo : List (Nat × Nat)) (cp : List Nat),
      (∀ e ∈ coo, e.2 + 1 < cp.length) → ∀ j,
      (coo.foldl (fun cp e => cp.set (e.2 + 1) (cp.getD (e.2 + 1) 0 + 1)) cp).getD j 0
        = cp.getD j 0 + (coo.filter (fun e => e.2 + 1 = j)).length := by
  intro coo
  induction coo with
  | nil => intro cp _ j; simp
  | cons e es ih =>
    intro cp hin j
    rw [List.foldl_cons,
      ih _ (fun e' he' => by
        rw [List.length_set]; exact hin e' (List.mem_cons_of_mem _ he')) j,
      List.filter_cons]
    by_cases hej : e.2 + 1 = j
    · rw [if_pos (by simp [hej]), List.length_cons,
        getD_set_zero, if_pos ⟨hej.symm, hin e (List.mem_cons_self e es)⟩]
      subst hej
      omega
    · rw [if_neg (by simp [hej]), getD_set_zero,
        if_neg (fun hcon => hej hcon.1.symm)]

lemma prefixPhase_spec (cnt : List Nat) :
    ∀ k : Nat, k < cnt.length →
      ((List.range k).foldl
          (fun cp j => cp.set (j + 1) (cp.getD (j + 1) 0 + cp.getD j 0)) cnt).length
        = cnt.length ∧
      (∀ c, c ≤ k →
        ((List.range k).foldl
            (fun cp j => cp.set (j + 1) (cp.getD (j + 1) 0 + cp.getD j 0)) cnt).getD c 0
          = cnt.getD 0 0 + ∑ j ∈ Finset.range c, cnt.getD (j + 1) 0) ∧
      (∀ c, k < c →
        ((List.range k).foldl
            (fun cp j => cp.set (j + 1) (cp.getD (j + 1) 0 + cp.getD j 0)) cnt).getD c 0
          = cnt.getD c 0) := by
  intro k
  induction k with
  | zero =>
    intro _
    refine ⟨rfl, ?_, fun c _ => rfl⟩
    intro c hc
    interval_cases c
    simp
  | succ k ih =>
    intro hk
    obtain ⟨hlen, hle, hgt⟩ := ih (by omega)
    rw [List.range_succ]
    constructor
    · rw [List.foldl_append, List.foldl_cons, List.foldl_nil, List.length_set, hlen]
    have hstep : ∀ c : Nat,
        ((List.range k ++ [k]).foldl
            (fun cp j => cp.set (j + 1) (cp.getD (j + 1) 0 + cp.getD j 0)) cnt).getD c 0
          = if c = k + 1 ∧ k + 1 <
                ((List.range k).foldl
                  (fun cp j => cp.set (j + 1) (cp.getD (j + 1) 0 + cp.getD j 0)) cnt).length
            then ((List.range k).foldl
                (fun cp j => cp.set (j + 1) (cp.getD (j + 1) 0 + cp.getD j 0)) cnt).getD (k + 1) 0
              + ((List.range k).foldl
                (fun cp j => cp.set (j + 1) (cp.getD (j + 1) 0 + cp.getD j 0)) cnt).getD k 0
            else ((List.range k).foldl
                (fun cp j => cp.set (j + 1) (cp.getD (j + 1) 0 + cp.getD j 0)) cnt).getD c 0 := by
      intro c
      rw [List.foldl_append, List.foldl_cons, List.foldl_nil, getD_set_zero]
    constructor
    · intro c hc
      rw [hstep c]
      by_cases hck : c = k + 1
      · subst hck
        rw [if_pos ⟨rfl, by omega⟩, hgt (k + 1) (by omega), hle k le_rfl,
          Finset.sum_range_succ]
        omega
      · rw [if_neg (fun hcon => hck hcon.1)]
        exact hle c (by omega)
    · intro c hc
      rw [hstep c, if_neg (fun hcon => by omega), hgt c (by omega)]

lemma buildColPtr_length (ncols : Nat) (coo : List (Nat × Nat)) :
    (buildColPtr ncols coo).length = ncols + 1 := by
  unfold buildColPtr
  rw [(prefixPhase_spec _ ncols (by
    rw [countPhase_length, List.length_replicate]; omega)).1,
    countPhase_length, List.length_replicate]

lemma buildColPtr_getD (ncols : Nat) (coo : List (Nat × Nat))
    (hcols : ∀ e ∈ coo, e.2 < ncols) :
    ∀ c, c ≤ ncols →
      (buildColPtr ncols coo).getD c 0 = ∑ j ∈ Finset.range c, countCol coo j := by
  intro c hc
  have hcntlen : (coo.foldl (fun cp e => cp.set (e.2 + 1) (cp.getD (e.2 + 1) 0 + 1))
      (List.replicate (ncols + 1) 0)).length = ncols + 1 := by
    rw [countPhase_length, List.length_replicate]
  have hcnt : ∀ j,
      (coo.foldl (fun cp e => cp.set (e.2 + 1) (cp.getD (e.2 + 1) 0 + 1))
          (List.replicate (ncols + 1) 0)).getD j 0
        = (coo.filter (fun e => e.2 + 1 = j)).length := by
    intro j
    rw [countPhase_getD coo _ (fun e he => by
        rw [List.length_replicate]
        have := hcols e he
        omega) j,
      getD_replicate_zero, Nat.zero_add]
  have hcnt0 : (coo.filter (fun e => e.2 + 1 = 0)).length = 0 := by
    have hnil : coo.filter (fun e => e.2 + 1 = 0) = [] := by
      rw [List.filter_eq_nil_iff]
      intro a _
      simp
    rw [hnil]
    rfl
  have hcnts : ∀ j, (coo.filter (fun e => e.2 + 1 = j + 1)).length = countCol coo j := by
    intro j
    unfold countCol
    congr 1
    apply List.filter_congr
    intro a _
    simp only [decide_eq_decide]
    omega
  unfold buildColPtr
  rw [(prefixPhase_spec _ ncols (by rw [hcntlen]; omega)).2.1 c hc]
  rw [hcnt 0, hcnt0, Nat.zero_add]
  exact Finset.sum_congr rfl (fun j _ => by rw [hcnt (j + 1), hcnts j])

lemma sum_countCol (ncols : Nat) :
    ∀ coo : List (Nat × Nat), (∀ e ∈ coo, e.2 < ncols) →
      ∑ j ∈ Finset.range ncols, countCol coo j = coo.length := by
  intro coo
  induction coo with
  | nil =>
    intro _
    simp [countCol_nil]
  | cons e es ih =>
    intro hcols
    have he2 : e.2 < ncols := hcols e (List.mem_cons_self e es)
    rw [Finset.sum_congr rfl (fun j _ => countCol_cons e es j),
      Finset.sum_add_distrib,
      ih (fun e' he' => hcols e' (List.mem_cons_of_mem _ he')), List.length_cons]
    have hone : ∑ j ∈ Finset.range ncols, (if e.2 = j then 1 else 0) = 1 := by
      rw [Finset.sum_ite_eq]
      simp [he2]
    omega

lemma fillPhase_spec (ncols : Nat) (coo : List (Nat × Nat))
    (hcols : ∀ e ∈ coo, e.2 < ncols) (cp : List Nat)
    (hcp : ∀ c, c ≤ ncols → cp.getD c 0 = ∑ j ∈ Finset.range c, countCol coo j) :
    ∀ (rest done : List (Nat × Nat)), coo = done ++ rest →
      ∀ (row fill : List Nat),
      row.length = coo.length →
      fill.length = ncols →
      (∀ c, c < ncols → fill.getD c 0 = countCol done c) →
      (∀ c, c < ncols → ∀ t, t < countCol done c →
        row.getD (cp.getD c 0 + t) 0 =
          ((done.filter (fun e => e.2 = c)).map (fun e => e.1)).getD t 0) →
      (rest.foldl (fillStep cp) (row, fill)).1.length = coo.length ∧
      (∀ c, c < ncols → ∀ t, t < countCol coo c →
        (rest.foldl (fillStep cp) (row, fill)).1.getD (cp.getD c 0 + t) 0 =
          ((coo.filter (fun e => e.2 = c)).map (fun e => e.1)).getD t 0) := by
  have hsucc : ∀ c, c < ncols → cp.getD (c + 1) 0 = cp.getD c 0 + countCol coo c := by
    intro c hcn
    rw [hcp (c + 1) hcn, hcp c (le_of_lt hcn), Finset.sum_range_succ]
  have hmono : ∀ c1 c2, c1 ≤ c2 → c2 ≤ ncols → cp.getD c1 0 ≤ cp.getD c2 0 := by
    intro c1 c2 h12 h2n
    rw [hcp c1 (le_trans h12 h2n), hcp c2 h2n]
    exact Finset.sum_le_sum_of_subset (Finset.range_subset.mpr h12)
  have hbound : ∀ c, c < ncols → cp.getD c 0 + countCol coo c ≤ coo.length := by
    intro c hcn
    rw [← hsucc c hcn, ← sum_countCol ncols coo hcols, hcp (c + 1) hcn]
    exact Finset.sum_le_sum_of_subset (Finset.range_subset.mpr hcn)
  intro rest
  induction rest with
  | nil =>
    intro done hsplit row fill hrow _ _ hrowinv
    rw [List.append_nil] at hsplit
    subst hsplit
    exact ⟨hrow, hrowinv⟩
  | cons e rest' ih =>
    intro done hsplit row fill hrow hfill hfillinv hrowinv
    have hecoo : e ∈ coo := by
      rw [hsplit]
      exact List.mem_append_right done (List.mem_cons_self e rest')
    have hc : e.2 < ncols := hcols e hecoo
    have hcount_split : ∀ c, countCol coo c = countCol done c + countCol (e :: rest') c := by
      intro c
      rw [hsplit, countCol_append]
    have hlt : countCol done e.2 < countCol coo e.2 := by
      have hs := hcount_split e.2
      rw [countCol_cons, if_pos rfl] at hs
      omega
    have hdone_le : ∀ c, countCol done c ≤ countCol coo c := by
      intro c
      have := hcount_split c
      omega
    have hdest_lt : cp.getD e.2 0 + fill.getD e.2 0 < row.length := by
      rw [hrow, hfillinv e.2 hc]
      have := hbound e.2 hc
      omega
    have hdisj : ∀ c, c < ncols → c ≠ e.2 → ∀ t, t < countCol coo c →
        cp.getD c 0 + t ≠ cp.getD e.2 0 + fill.getD e.2 0 := by
      intro c hcn hne t ht
      rw [hfillinv e.2 hc]
      rcases Nat.lt_or_ge c e.2 with hlt' | hge
      · have h1 : cp.getD c 0 + t < cp.getD (c + 1) 0 := by
          rw [hsucc c hcn]
          omega
        have h2 : cp.getD (c + 1) 0 ≤ cp.getD e.2 0 := hmono (c + 1) e.2 hlt' (le_of_lt hc)
        omega
      · have hgt : e.2 < c := lt_of_le_of_ne hge (fun h => hne h.symm)
        have h1 : cp.getD e.2 0 + countCol done e.2 < cp.getD (e.2 + 1) 0 := by
          rw [hsucc e.2 hc]
          omega
        have h2 : cp.getD (e.2 + 1) 0 ≤ cp.getD c 0 := hmono (e.2 + 1) c hgt (le_of_lt hcn)
        omega
    have hstep : (e :: rest').foldl (fillStep cp) (row, fill)
        = rest'.foldl (fillStep cp)
            (row.set (cp.getD e.2 0 + fill.getD e.2 0) e.1,
             fill.set e.2 (fill.getD e.2 0 + 1)) := rfl
    rw [hstep]
    apply ih (done ++ [e])
    · rw [hsplit, List.append_assoc, List.singleton_append]
    · rw [List.length_set, hrow]
    · rw [List.length_set, hfill]
    · intro c hcn
      rw [getD_set_zero, countCol_append, countCol_cons, countCol_nil]
      by_cases hce : c = e.2
      · subst hce
        rw [if_pos ⟨rfl, by rw [hfill]; exact hc⟩, if_pos rfl, hfillinv e.2 hcn]
      · rw [if_neg (fun hcon => hce hcon.1), if_neg (fun hcon => hce hcon.symm),
          hfillinv c hcn]
        omega
    · intro c hcn t ht
      rw [countCol_append, countCol_cons, countCol_nil] at ht
      have hmaplen : ((done.filter (fun e => e.2 = c)).map (fun e => e.1)).length
          = countCol done c := by
        rw [List.length_map]
        rfl
      by_cases hce : e.2 = c
      · subst hce
        rw [if_pos rfl] at ht
        have hfly : (done ++ [e]).filter (fun x => x.2 = e.2)
            = done.filter (fun x => x.2 = e.2) ++ [e] := by
          rw [List.filter_append]
          congr 1
          simp
        rw [hfly, List.map_append]
        rcases Nat.lt_or_ge t (countCol done e.2) with htlt | htge
        · rw [getD_set_zero, if_neg (fun hcon => by
            rw [hfillinv e.2 hc] at hcon
            omega)]
          rw [hrowinv e.2 hc t htlt,
            List.getD_append _ _ _ _ (by rw [hmaplen]; exact htlt)]
        · have hteq : t = countCol done e.2 := by omega
          rw [getD_set_zero, if_pos ⟨by rw [hfillinv e.2 hc, hteq], hdest_lt⟩,
            List.getD_append_right _ _ _ _ (by rw [hmaplen]; omega),
            hmaplen, hteq]
          simp
      · have hfln : (done ++ [e]).filter (fun x => x.2 = c)
            = done.filter (fun x => x.2 = c) := by
          rw [List.filter_append]
          have hnil : [e].filter (fun x => x.2 = c) = [] := by simp [hce]
          rw [hnil, List.append_nil]
        rw [if_neg hce] at ht
        rw [hfln, getD_set_zero, if_neg (fun hcon =>
          hdisj c hcn (fun h => hce h.symm) t
            (lt_of_lt_of_le (by omega) (hdone_le c)) hcon.1)]
        exact hrowinv c hcn t (by omega)

lemma fillRowIdx_spec (ncols : Nat) (coo : List (Nat × Nat))
    (hcols : ∀ e ∈ coo, e.2 < ncols) :
    (fillRowIdx ncols (buildColPtr ncols coo) coo.length coo).length = coo.length ∧
    ∀ c, c < ncols → ∀ t, t < countCol coo c →
      (fillRowIdx ncols (buildColPtr ncols coo) coo.length coo).getD
          ((buildColPtr ncols coo).getD c 0 + t) 0 =
        ((coo.filter (fun e => e.2 = c)).map (fun e => e.1)).getD t 0 :=
  fillPhase_spec ncols coo hcols (buildColPtr ncols coo)
    (buildColPtr_getD ncols coo hcols) coo [] rfl
    (List.replicate coo.length 0) (List.replicate ncols 0)
    (by rw [List.length_replicate]) (by rw [List.length_replicate])
    (fun c _ => by rw [getD_replicate_zero, countCol_nil])
    (fun c _ t ht => absurd ht (by rw [countCol_nil]; omega))

/-- What the COO-to-CSC conversion stores in column `c`: exactly the rows
of the COO entries with column `c`, in input order (the counting sort is
stable). -/
lemma colRows_fill (ncols : Nat) (coo : List (Nat × Nat))
    (hcols : ∀ e ∈ coo, e.2 < ncols) (nr : Nat) (c : Nat) :
    colRows (CSCBinaryMatrix.mk nr ncols coo.length
        (fillRowIdx ncols (buildColPtr ncols coo) coo.length coo)
        (buildColPtr ncols coo)) c
      = (coo.filter (fun e => e.2 = c)).map (fun e => e.1) := by
  by_cases hcn : c < ncols
  · have hspec := fillRowIdx_spec ncols coo hcols
    have hsucc : (buildColPtr ncols coo).getD (c + 1) 0
        = (buildColPtr ncols coo).getD c 0 + countCol coo c := by
      rw [buildColPtr_getD ncols coo hcols (c + 1) hcn,
        buildColPtr_getD ncols coo hcols c (le_of_lt hcn), Finset.sum_range_succ]
    unfold colRows
    dsimp only
    rw [hsucc, Nat.add_sub_cancel_left]
    apply List.ext_getElem
    · rw [List.length_map, List.length_range', List.length_map]
      rfl
    · intro i h1 h2
      rw [List.getElem_map, List.getElem_range', Nat.one_mul]
      have hib : i < countCol coo c := by
        rwa [List.length_map, List.length_range'] at h1
      rw [← List.getD_eq_getElem _ _ h2]
      exact hspec.2 c hcn i hib
  · have hcp1 : (buildColPtr ncols coo).getD (c + 1) 0 = 0 := by
      rw [List.getD_eq_getElem?_getD,
        List.getElem?_eq_none (by rw [buildColPtr_length]; omega)]
      rfl
    have hfilter : coo.filter (fun e => e.2 = c) = [] := by
      rw [List.filter_eq_nil_iff]
      intro a ha
      have := hcols a ha
      simp only [decide_eq_true_eq]
      omega
    unfold colRows
    dsimp only
    rw [hcp1, Nat.zero_sub, hfilter]
    rfl

/-- Inversion of a successful load: the column indices are in range and
the matrix is exactly the converted COO data. -/
lemma load_some_inv (f : MMCoordFile) (m : CSCBinaryMatrix)
    (hload : csc_load_matrix_mtx_coord f = some m) :
    (∀ e ∈ mmCoo f, e.2 < f.ncols) ∧
    m = CSCBinaryMatrix.mk f.nrows f.ncols (mmCoo f).length
      (fillRowIdx f.ncols (buildColPtr f.ncols (mmCoo f)) (mmCoo f).length
        (mmCoo f))
      (buildColPtr f.ncols (mmCoo f)) := by
  unfold csc_load_matrix_mtx_coord at hload
  by_cases h1 : f.entries.length < f.nnz
  · rw [if_pos h1] at hload
    exact absurd hload (by simp)
  rw [if_neg h1] at hload
  by_cases h2 : (mmCoo f).any (fun e => f.ncols ≤ e.2) = true
  · rw [if_pos h2] at hload
    exact absurd hload (by simp)
  · rw [if_neg h2] at hload
    refine ⟨?_, (Option.some.inj hload).symm⟩
    intro e he
    by_contra hcon
    exact h2 (List.any_eq_true.mpr ⟨e, he, by simp only [decide_eq_true_eq]; omega⟩)

/-- The stored entries of a loaded coordinate matrix are the COO pairs
bucketed by column. -/
lemma load_edges_eq (f : MMCoordFile) (m : CSCBinaryMatrix)
    (hload : csc_load_matrix_mtx_coord f = some m) :
    edges m = cooBuckets f.ncols (mmCoo f) := by
  obtain ⟨hcols, hm⟩ := load_some_inv f m hload
  subst hm
  unfold edges cooBuckets
  dsimp only
  congr 1
  funext c
  rw [colRows_fill f.ncols (mmCoo f) hcols f.nrows c, List.map_map]
  rfl

/-- Membership in the stored entries of a loaded coordinate matrix is
exactly membership in the parsed COO list: row indices pass through
unvalidated. -/
lemma load_edges_mem (f : MMCoordFile) (m : CSCBinaryMatrix)
    (hload : csc_load_matrix_mtx_coord f = some m) :
    ∀ p, p ∈ edges m ↔ p ∈ mmCoo f := by
  obtain ⟨hcols, _⟩ := load_some_inv f m hload
  intro p
  rw [load_edges_eq f m hload]
  unfold cooBuckets
  constructor
  · intro hp
    rcases List.mem_flatMap.mp hp with ⟨c, _, hpc⟩
    rcases List.mem_map.mp hpc with ⟨e, hef, hep⟩
    have he2 : e.2 = c := of_decide_eq_true (List.mem_filter.mp hef).2
    have hee : e ∈ mmCoo f := (List.mem_filter.mp hef).1
    have hpe : p = e := by rw [← hep, ← he2]
    rw [hpe]
    exact hee
  · intro hp
    apply List.mem_flatMap.mpr
    refine ⟨p.2, List.mem_range.mpr (hcols p hp), ?_⟩
    apply List.mem_map.mpr
    exact ⟨p, List.mem_filter.mpr ⟨hp, by simp⟩, rfl⟩

/-- For a `symmetric` file the diagonal part of the stored COO list is
exactly one pair per nonzero diagonal entry line: diagonal entries are
never duplicated by the mirroring step (which requires `i != j`), and
mirrored off-diagonal pairs never land on the diagonal when indices are
1-based. -/
lemma mmCoo_diag_filter (f : MMCoordFile) :
    ∀ L : List (Nat × Nat × Int), (∀ e ∈ L, 1 ≤ e.1 ∧ 1 ≤ e.2.1) →
      (L.flatMap (fun e =>
          if mmVal f e ≠ 0 then
            (e.1 - 1, e.2.1 - 1) ::
              (if f.sym = MMSymmetry.symmetric ∧ e.1 ≠ e.2.1 then
                [(e.2.1 - 1, e.1 - 1)]
              else [])
          else [])).filter (fun p => p.1 = p.2)
        = (L.filter (fun e => mmVal f e ≠ 0 ∧ e.1 = e.2.1)).map
            (fun e => (e.1 - 1, e.2.1 - 1)) := by
  intro L
  induction L with
  | nil => intro _; rfl
  | cons e L' ih =>
    intro hpos
    have hpe := hpos e (List.mem_cons_self e L')
    rw [List.flatMap_cons, List.filter_append,
      ih (fun e' he' => hpos e' (List.mem_cons_of_mem _ he')), List.filter_cons]
    by_cases hv : mmVal f e ≠ 0
    · by_cases hij : e.1 = e.2.1
      · rw [if_pos hv, if_neg (fun hcon => hcon.2 hij)]
        have hd : e.1 - 1 = e.2.1 - 1 := by rw [hij]
        simp [hv, hij, hd]
      · rw [if_pos hv]
        have hd1 : ¬ (e.1 - 1 = e.2.1 - 1) := by omega
        have hd2 : ¬ (e.2.1 - 1 = e.1 - 1) := by omega
        by_cases hsym : f.sym = MMSymmetry.symmetric
        · rw [if_pos ⟨hsym, hij⟩]
          simp [hv, hij, hd1, hd2]
        · rw [if_neg (fun hcon => hsym hcon.1)]
          simp [hv, hij, hd1]
    · rw [if_neg hv]
      simp [hv]

/-- Claim C5 (corrected): the coordinate loader performs no row-index
validation at all.  A successful load stores exactly the parsed COO pairs,
bucketed by column, with every row index copied verbatim — including row
indices at or beyond nrows (see the counterexample). -/
theorem claim_C5 (f : MMCoordFile) (m : CSCBinaryMatrix)
    (hload : csc_load_matrix_mtx_coord f = some m) :
    edges m = cooBuckets f.ncols (mmCoo f) ∧
    (∀ p, p ∈ edges m ↔ p ∈ mmCoo f) :=
  ⟨load_edges_eq f m hload, load_edges_mem f m hload⟩

theorem claim_C5_witness :
    edges (CSCBinaryMatrix.mk 3 3 1 [3] [0, 1, 1, 1]) =
      cooBuckets 3 (mmCoo (MMCoordFile.mk true MMSymmetry.general 3 3 1 [(4, 1, 1)])) ∧
    (∀ p, p ∈ edges (CSCBinaryMatrix.mk 3 3 1 [3] [0, 1, 1, 1]) ↔
      p ∈ mmCoo (MMCoordFile.mk true MMSymmetry.general 3 3 1 [(4, 1, 1)])) :=
  claim_C5 (MMCoordFile.mk true MMSymmetry.general 3 3 1 [(4, 1, 1)])
    (CSCBinaryMatrix.mk 3 3 1 [3] [0, 1, 1, 1]) rfl

/-- The pattern file `3 3 1` with single entry `4 1` has row index 4
(0-based 3 ≥ nrows = 3), yet the loader returns a matrix storing that row
index verbatim: claim C5 as stated is false. -/
theorem claim_C5_counterexample :
    csc_load_matrix_mtx_coord (MMCoordFile.mk true MMSymmetry.general 3 3 1 [(4, 1, 1)])
      = some (CSCBinaryMatrix.mk 3 3 1 [3] [0, 1, 1, 1]) ∧
    3 ∈ (CSCBinaryMatrix.mk 3 3 1 [3] [0, 1, 1, 1]).row_idx ∧
    ¬ 3 < (CSCBinaryMatrix.mk 3 3 1 [3] [0, 1, 1, 1]).nrows :=
  ⟨rfl, by decide, by decide⟩

/-- Claim C7 (corrected): mirroring happens for symmetry `symmetric` only.
For `symmetric` files every nonzero off-diagonal entry is stored in both
orientations and diagonal entries exactly once, but for `skew-symmetric`
and `hermitian` the entry loop stores only the lower-triangular pair as
read: nothing is mirrored (see the counterexample). -/
theorem claim_C7 (f : MMCoordFile) (m : CSCBinaryMatrix)
    (hload : csc_load_matrix_mtx_coord f = some m) :
    (f.sym = MMSymmetry.symmetric →
      ∀ e ∈ f.entries.take f.nnz, mmVal f e ≠ 0 → e.1 ≠ e.2.1 →
        (e.1 - 1, e.2.1 - 1) ∈ edges m ∧ (e.2.1 - 1, e.1 - 1) ∈ edges m) ∧
    ((∀ e ∈ f.entries.take f.nnz, 1 ≤ e.1 ∧ 1 ≤ e.2.1) →
      (mmCoo f).filter (fun p => p.1 = p.2)
        = ((f.entries.take f.nnz).filter
            (fun e => mmVal f e ≠ 0 ∧ e.1 = e.2.1)).map
            (fun e => (e.1 - 1, e.2.1 - 1))) ∧
    ((f.sym = MMSymmetry.skew ∨ f.sym = MMSymmetry.hermitian) →
      mmCoo f = (f.entries.take f.nnz).flatMap
        (fun e => if mmVal f e ≠ 0 then [(e.1 - 1, e.2.1 - 1)] else [])) := by
  refine ⟨?_, ?_, ?_⟩
  · intro hsym e he hv hij
    have hmem := load_edges_mem f m hload
    constructor
    · rw [hmem]
      unfold mmCoo
      exact List.mem_flatMap.mpr ⟨e, he, by
        rw [if_pos hv]
        exact List.mem_cons_self _ _⟩
    · rw [hmem]
      unfold mmCoo
      exact List.mem_flatMap.mpr ⟨e, he, by
        rw [if_pos hv, if_pos ⟨hsym, hij⟩]
        exact List.mem_cons_of_mem _ (List.mem_cons_self _ _)⟩
  · intro hpos
    exact mmCoo_diag_filter f (f.entries.take f.nnz) hpos
  · intro hsk
    unfold mmCoo
    congr 1
    funext e
    by_cases hv : mmVal f e ≠ 0
    · rw [if_pos hv, if_pos hv, if_neg (fun hcon => by
        rcases hcon with ⟨h1, _⟩
        rcases hsk with hs | hs <;> rw [hs] at h1 <;> exact MMSymmetry.noConfusion h1)]
    · rw [if_neg hv, if_neg hv]

theorem claim_C7_witness :
    ((MMCoordFile.mk true MMSymmetry.symmetric 2 2 1 [(2, 1, 1)]).sym
        = MMSymmetry.symmetric →
      ∀ e ∈ ((MMCoordFile.mk true MMSymmetry.symmetric 2 2 1
          [(2, 1, 1)]).entries.take 1),
        mmVal (MMCoordFile.mk true MMSymmetry.symmetric 2 2 1 [(2, 1, 1)]) e ≠ 0 →
        e.1 ≠ e.2.1 →
        (e.1 - 1, e.2.1 - 1) ∈ edges (CSCBinaryMatrix.mk 2 2 2 [1, 0] [0, 1, 2]) ∧
        (e.2.1 - 1, e.1 - 1) ∈ edges (CSCBinaryMatrix.mk 2 2 2 [1, 0] [0, 1, 2])) ∧
    ((∀ e ∈ ((MMCoordFile.mk true MMSymmetry.symmetric 2 2 1
          [(2, 1, 1)]).entries.take 1), 1 ≤ e.1 ∧ 1 ≤ e.2.1) →
      (mmCoo (MMCoordFile.mk true MMSymmetry.symmetric 2 2 1
          [(2, 1, 1)])).filter (fun p => p.1 = p.2)
        = (((MMCoordFile.mk true MMSymmetry.symmetric 2 2 1
              [(2, 1, 1)]).entries.take 1).filter
            (fun e => mmVal (MMCoordFile.mk true MMSymmetry.symmetric 2 2 1
              [(2, 1, 1)]) e ≠ 0 ∧ e.1 = e.2.1)).map
            (fun e => (e.1 - 1, e.2.1 - 1))) ∧
    (((MMCoordFile.mk true MMSymmetry.symmetric 2 2 1 [(2, 1, 1)]).sym
          = MMSymmetry.skew ∨
      (MMCoordFile.mk true MMSymmetry.symmetric 2 2 1 [(2, 1, 1)]).sym
          = MMSymmetry.hermitian) →
      mmCoo (MMCoordFile.mk true MMSymmetry.symmetric 2 2 1 [(2, 1, 1)])
        = ((MMCoordFile.mk true MMSymmetry.symmetric 2 2 1
            [(2, 1, 1)]).entries.take 1).flatMap
            (fun e => if mmVal (MMCoordFile.mk true MMSymmetry.symmetric 2 2 1
                [(2, 1, 1)]) e ≠ 0
              then [(e.1 - 1, e.2.1 - 1)] else [])) :=
  claim_C7 (MMCoordFile.mk true MMSymmetry.symmetric 2 2 1 [(2, 1, 1)])
    (CSCBinaryMatrix.mk 2 2 2 [1, 0] [0, 1, 2]) rfl

/-- A `skew-symmetric` pattern file with the single entry `2 1` loads to a
matrix storing only `(1, 0)`: the mirrored `(0, 1)` required by claim C7
is absent, because the entry loop mirrors only when the symmetry is
exactly `symmetric`. -/
theorem claim_C7_counterexample :
    csc_load_matrix_mtx_coord (MMCoordFile.mk true MMSymmetry.skew 2 2 1 [(2, 1, 1)])
      = some (CSCBinaryMatrix.mk 2 2 1 [1] [0, 1, 1]) ∧
    (1, 0) ∈ edges (CSCBinaryMatrix.mk 2 2 1 [1] [0, 1, 1]) ∧
    (0, 1) ∉ edges (CSCBinaryMatrix.mk 2 2 1 [1] [0, 1, 1]) :=
  ⟨rfl, by decide, by decide⟩

/-- Dispatcher of cc_sequential.c: variant 0 is label propagation, variant 1
is union-find, anything else returns -1. -/
def cc_sequential (M : CSCBinaryMatrix) (n_threads : Nat)
    (algorithm_variant : Nat) : Option Int :=
  match algorithm_variant with
  | 0 => Seq.cc_label_propegation M
  | 1 => some (Seq.cc_union_find M)
  | _ => some (-1)

/-- Dispatcher of cc_openmp.c: variant 0 is parallel label propagation,
variant 1 is parallel union-find, anything else returns -1.  The matrix
argument is optional to model the NULL pointer. -/
def cc_openmp (M? : Option CSCBinaryMatrix) (n_threads : Nat)
    (algorithm_variant : Nat) : Option Int :=
  match algorithm_variant with
  | 0 => Omp.cc_label_propagation M? n_threads
  | 1 => some (Omp.cc_union_find M? n_threads)
  | _ => some (-1)

/-- The label array of the sequential union-find after its flattening
pass: the state whose roots the final loop counts. -/
def Seq.uf_labels_after_flatten (M : CSCBinaryMatrix) : List Nat :=
  (List.range M.nrows).foldl
    (fun l i => (Seq.find_root_halving l.length l i).1)
    ((edges M).foldl (fun l e => (Seq.union_nodes_by_index l e.2 e.1).1)
      (List.range M.nrows))

/-- The label array of the parallel union-find after its phase-3
flattening pass. -/
def Omp.uf_labels_after_flatten (M : CSCBinaryMatrix) : List Nat :=
  (List.range M.nrows).foldl (fun l i => (Omp.find_compress l i).1)
    ((edges M).foldl
      (fun l e =>
        if e.1 < M.nrows then (Omp.union_rem [] l e.1 e.2).1 else l)
      (List.range M.nrows))

/-- After the sequential union-find's flattening pass, every cell holds the
canonical (minimum) root of its component. -/
lemma seq_uf_labels_spec {M : CSCBinaryMatrix} (hv : M.Valid) :
    ∀ i, i < M.nrows →
      par (Seq.uf_labels_after_flatten M) i = cmin (edges M) i := by
  unfold Seq.uf_labels_after_flatten
  have h0 : InvUF [] (List.range M.nrows) := invUF_range M.nrows
  have hlen0 : (List.range M.nrows).length = M.nrows := List.length_range _
  have hb : ∀ e ∈ edges M, e.1 < (List.range M.nrows).length ∧
      e.2 < (List.range M.nrows).length := by
    intro e he
    rw [hlen0]
    exact edges_mem hv e he
  obtain ⟨hinv1, hlen1⟩ := Seq.unionPhase_invUF (edges M) [] _ h0 hb
  rw [List.nil_append] at hinv1
  obtain ⟨_, _, _, hflat⟩ := Seq.flattenPhase_spec hinv1.1 M.nrows (by omega)
  intro i hi
  rw [hflat i hi, hinv1.rootP_eq_cmin i]

/-- Claim C3: after the sequential union-find has processed all entries and
flattened, every cell holds the minimum node index of its component; roots
are exactly those minima; and `union_nodes_by_index` always attaches the
root with the larger index below the root with the smaller index. -/
theorem claim_C3 (M : CSCBinaryMatrix) (hv : M.Valid) :
    (∀ i, i < M.nrows →
      par (Seq.uf_labels_after_flatten M) i = cmin (edges M) i) ∧
    (∀ r, r < M.nrows → par (Seq.uf_labels_after_flatten M) r = r →
      r = cmin (edges M) r ∧ ∀ j, StarE (edges M) r j → r ≤ j) ∧
    (∀ (l : List Nat) (i j : Nat),
      (Seq.find_root_halving l.length l i).2 ≠
        (Seq.find_root_halving (Seq.find_root_halving l.length l i).1.length
          (Seq.find_root_halving l.length l i).1 j).2 →
      (Seq.union_nodes_by_index l i j).1 =
        (Seq.find_root_halving (Seq.find_root_halving l.length l i).1.length
            (Seq.find_root_halving l.length l i).1 j).1.set
          (max (Seq.find_root_halving l.length l i).2
            (Seq.find_root_halving (Seq.find_root_halving l.length l i).1.length
              (Seq.find_root_halving l.length l i).1 j).2)
          (min (Seq.find_root_halving l.length l i).2
            (Seq.find_root_halving (Seq.find_root_halving l.length l i).1.length
              (Seq.find_root_halving l.length l i).1 j).2)) := by
  refine ⟨seq_uf_labels_spec hv, fun r hr hroot => ?_, fun l i j hne => ?_⟩
  · have h1 := seq_uf_labels_spec hv r hr
    rw [hroot] at h1
    refine ⟨h1, fun j hj => ?_⟩
    have := cmin_le hj
    omega
  · unfold Seq.union_nodes_by_index
    dsimp only
    rw [if_neg hne]
    by_cases hlt : (Seq.find_root_halving l.length l i).2 <
        (Seq.find_root_halving (Seq.find_root_halving l.length l i).1.length
          (Seq.find_root_halving l.length l i).1 j).2
    · rw [if_pos hlt, max_eq_right (le_of_lt hlt), min_eq_left (le_of_lt hlt)]
    · rw [if_neg hlt, max_eq_left (by omega), min_eq_right (by omega)]

/-- Witness for C3 at a concrete valid matrix. -/
theorem claim_C3_witness :
    (CSCBinaryMatrix.mk 3 3 2 [2, 0] [0, 0, 1, 2]).Valid ∧
    ((∀ i, i < 3 →
      par (Seq.uf_labels_after_flatten
        (CSCBinaryMatrix.mk 3 3 2 [2, 0] [0, 0, 1, 2])) i =
        cmin (edges (CSCBinaryMatrix.mk 3 3 2 [2, 0] [0, 0, 1, 2])) i) ∧
    (∀ r, r < 3 →
      par (Seq.uf_labels_after_flatten
        (CSCBinaryMatrix.mk 3 3 2 [2, 0] [0, 0, 1, 2])) r = r →
      r = cmin (edges (CSCBinaryMatrix.mk 3 3 2 [2, 0] [0, 0, 1, 2])) r ∧
      ∀ j, StarE (edges (CSCBinaryMatrix.mk 3 3 2 [2, 0] [0, 0, 1, 2])) r j →
        r ≤ j) ∧
    (∀ (l : List Nat) (i j : Nat),
      (Seq.find_root_halving l.length l i).2 ≠
        (Seq.find_root_halving (Seq.find_root_halving l.length l i).1.length
          (Seq.find_root_halving l.length l i).1 j).2 →
      (Seq.union_nodes_by_index l i j).1 =
        (Seq.find_root_halving (Seq.find_root_halving l.length l i).1.length
            (Seq.find_root_halving l.length l i).1 j).1.set
          (max (Seq.find_root_halving l.length l i).2
            (Seq.find_root_halving (Seq.find_root_halving l.length l i).1.length
              (Seq.find_root_halving l.length l i).1 j).2)
          (min (Seq.find_root_halving l.length l i).2
            (Seq.find_root_halving (Seq.find_root_halving l.length l i).1.length
              (Seq.find_root_halving l.length l i).1 j).2))) :=
  ⟨by decide, claim_C3 (CSCBinaryMatrix.mk 3 3 2 [2, 0] [0, 0, 1, 2])
    (by decide)⟩

/-- Claim C2 is refuted by the code: on the matrix with entries `(2,1)` and
`(0,2)` the phase-3 flatten of the parallel union-find leaves
`label = [0, 0, 1]`, so `label[2] = 1` is not the canonical root `0` of its
component — `find_compress` never compresses, its early exit always fires. -/
theorem claim_C2_code_bug :
    Omp.uf_labels_after_flatten (CSCBinaryMatrix.mk 3 3 2 [2, 0] [0, 0, 1, 2])
      = [0, 0, 1] ∧
    cmin (edges (CSCBinaryMatrix.mk 3 3 2 [2, 0] [0, 0, 1, 2])) 2 = 0 ∧
    par (Omp.uf_labels_after_flatten
      (CSCBinaryMatrix.mk 3 3 2 [2, 0] [0, 0, 1, 2])) 2 ≠
      cmin (edges (CSCBinaryMatrix.mk 3 3 2 [2, 0] [0, 0, 1, 2])) 2 := by
  have h1 : Omp.uf_labels_after_flatten
      (CSCBinaryMatrix.mk 3 3 2 [2, 0] [0, 0, 1, 2]) = [0, 0, 1] := by decide
  have hadj : adjE (edges (CSCBinaryMatrix.mk 3 3 2 [2, 0] [0, 0, 1, 2])) 2 0 :=
    Or.inr (by decide)
  have h2 : cmin (edges (CSCBinaryMatrix.mk 3 3 2 [2, 0] [0, 0, 1, 2])) 2 = 0 :=
    Nat.le_zero.mp (cmin_le (Relation.ReflTransGen.single hadj))
  refine ⟨h1, h2, ?_⟩
  rw [h1, h2]
  decide

/-- Claim C1: on every valid CSC matrix and every thread count `T ≥ 1`, all
four variants (sequential label propagation, sequential union-find, and the
two OpenMP variants embedded as sequential functions) return the same
component count as `cc_sequential` with variant 1. -/
theorem claim_C1 (M : CSCBinaryMatrix) (T : Nat) (hv : M.Valid)
    (hT : 1 ≤ T) :
    cc_sequential M T 0 = some (Seq.cc_union_find M) ∧
    cc_sequential M T 1 = some (Seq.cc_union_find M) ∧
    cc_openmp (some M) T 0 = some (Seq.cc_union_find M) ∧
    cc_openmp (some M) T 1 = some (Seq.cc_union_find M) := by
  have huf : Seq.cc_union_find M = Int.ofNat (minCount (edges M) M.nrows) :=
    cc_union_find_eq_minCount hv
  refine ⟨?_, rfl, ?_, ?_⟩
  · show Seq.cc_label_propegation M = some (Seq.cc_union_find M)
    rw [cc_label_propegation_eq_minCount hv, huf]
  · show Omp.cc_label_propagation (some M) T = some (Seq.cc_union_find M)
    rw [Omp.cc_label_propagation_eq_minCount hv T, huf]
  · show some (Omp.cc_union_find (some M) T) = some (Seq.cc_union_find M)
    rw [Omp.uf_rem_eq_minCount hv T, huf]

/-- Iterated parent pointer: `parIter l k x` follows `label` for `k`
steps. -/
def parIter (l : List Nat) : Nat → Nat → Nat
  | 0, x => x
  | k + 1, x => parIter l k (par l x)

lemma parIter_add (l : List Nat) (m n : Nat) :
    ∀ x, parIter l (m + n) x = parIter l n (parIter l m x) := by
  induction m with
  | zero =>
    intro x
    rw [Nat.zero_add]
    rfl
  | succ m ih =>
    intro x
    have h1 : m + 1 + n = (m + n) + 1 := by omega
    rw [h1, parIter, ih (par l x)]
    rfl

lemma parIter_succ' (l : List Nat) (k x : Nat) :
    parIter l (k + 1) x = par l (parIter l k x) := by
  rw [parIter_add l k 1 x]
  rfl

lemma parIter_root_absorb {l : List Nat} {r : Nat} (h : isRoot l r) :
    ∀ n, parIter l n r = r := by
  intro n
  induction n with
  | zero => rfl
  | succ n ih =>
    have h' : par l r = r := h
    rw [parIter, h']
    exact ih

lemma rootF_eq_parIter {l : List Nat} :
    ∀ (fuel k x : Nat), isRoot l (parIter l k x) → k ≤ fuel →
      rootF l fuel x = parIter l k x := by
  intro fuel
  induction fuel with
  | zero =>
    intro k x h hk
    have hk0 : k = 0 := by omega
    subst hk0
    rfl
  | succ f ih =>
    intro k x h hk
    rw [rootF]
    by_cases hr : par l x = x
    · rw [if_pos hr]
      exact (parIter_root_absorb hr k).symm
    · rw [if_neg hr]
      obtain ⟨k', rfl⟩ : ∃ k', k = k' + 1 := by
        cases k with
        | zero => exact absurd h hr
        | succ k' => exact ⟨k', rfl⟩
      exact ih k' (par l x) h (by omega)

/-- If following parents from `x` ever reaches a root, it reaches it within
`l.length` steps (a repeat before the first root would be a cycle). -/
lemma reach_within_length {l : List Nat} {x k : Nat}
    (h : isRoot l (parIter l k x)) :
    ∃ m, m ≤ l.length ∧ m ≤ k ∧ isRoot l (parIter l m x) := by
  classical
  have hex : ∃ m, isRoot l (parIter l m x) := ⟨k, h⟩
  have hm : isRoot l (parIter l (Nat.find hex) x) := Nat.find_spec hex
  have hmin : ∀ j, j < Nat.find hex → ¬ isRoot l (parIter l j x) :=
    fun j hj => Nat.find_min hex hj
  have hmk : Nat.find hex ≤ k := Nat.find_min' hex h
  refine ⟨Nat.find hex, ?_, hmk, hm⟩
  by_contra hlen
  push_neg at hlen
  have hvals : ∀ j, j < Nat.find hex → parIter l j x < l.length :=
    fun j hj => lt_length_of_not_isRoot (hmin j hj)
  obtain ⟨a, ha, b, hb, hne, heq⟩ :=
    Finset.exists_ne_map_eq_of_card_lt_of_maps_to
      (s := Finset.range (l.length + 1)) (t := Finset.range l.length)
      (by simp)
      (fun a ha => by
        rw [Finset.mem_range] at *
        exact hvals a (by omega))
  rw [Finset.mem_range] at ha hb
  obtain ⟨i, j, hij, hjle, hcol⟩ :
      ∃ i j, i < j ∧ j ≤ l.length ∧ parIter l i x = parIter l j x := by
    rcases Nat.lt_or_ge a b with hab | hab
    · exact ⟨a, b, hab, by omega, heq⟩
    · exact ⟨b, a, by omega, by omega, heq.symm⟩
  have hjm : j < Nat.find hex := by omega
  have hcyc : parIter l (j - i) (parIter l i x) = parIter l i x := by
    rw [← parIter_add l i (j - i) x, show i + (j - i) = j by omega]
    exact hcol.symm
  have hnonroot : ∀ t, t < j - i →
      ¬ isRoot l (parIter l t (parIter l i x)) := by
    intro t ht
    rw [← parIter_add l i t x]
    exact hmin (i + t) (by omega)
  have hmod : ∀ s, parIter l s (parIter l i x) =
      parIter l (s % (j - i)) (parIter l i x) := by
    intro s
    induction s using Nat.strong_induction_on with
    | _ s ih =>
      by_cases hs : s < j - i
      · rw [Nat.mod_eq_of_lt hs]
      · have hple : j - i ≤ s := by omega
        have hsplit : s = (j - i) + (s - (j - i)) := by omega
        rw [Nat.mod_eq_sub_mod hple]
        conv_lhs => rw [hsplit]
        rw [parIter_add, hcyc]
        exact ih (s - (j - i)) (by omega)
  have hfinal : parIter l (Nat.find hex) x =
      parIter l ((Nat.find hex - i) % (j - i)) (parIter l i x) := by
    rw [← hmod, ← parIter_add l i (Nat.find hex - i) x,
      show i + (Nat.find hex - i) = Nat.find hex by omega]
  exact hnonroot ((Nat.find hex - i) % (j - i))
    (Nat.mod_lt _ (by omega)) (hfinal ▸ hm)

lemma rootF_of_reach {l : List Nat} {x k : Nat}
    (h : isRoot l (parIter l k x)) :
    rootF l l.length x = parIter l k x ∧
      isRoot l (rootF l l.length x) := by
  obtain ⟨m, hmlen, hmk, hmroot⟩ := reach_within_length h
  have h1 : rootF l l.length x = parIter l m x :=
    rootF_eq_parIter l.length m x hmroot hmlen
  have h2 : parIter l k x = parIter l m x := by
    rw [show k = m + (k - m) by omega, parIter_add]
    exact parIter_root_absorb hmroot (k - m)
  rw [h1, h2]
  exact ⟨rfl, hmroot⟩

/-- Claim C10: in a single-threaded execution `find_compress` returns the
root reachable from `x` and leaves the entire label array unchanged: its
early-exit condition compares `label[x]` with the value just read from
`label[x]`, so no compression write is performed. -/
theorem claim_C10 (l : List Nat) (x k : Nat)
    (h : isRoot l (parIter l k x)) :
    (Omp.find_compress l x).1 = l ∧
    (Omp.find_compress l x).2 = parIter l k x ∧
    isRoot l (Omp.find_compress l x).2 := by
  obtain ⟨h1, h2⟩ := rootF_of_reach h
  exact ⟨Omp.find_compress_fst l x, h1, h2⟩

/-- Witness for C10: on `label = [0, 0, 1]` node 2 reaches root 0 in two
steps and `find_compress` leaves the array untouched. -/
theorem claim_C10_witness :
    isRoot [0, 0, 1] (parIter [0, 0, 1] 2 2) ∧
    ((Omp.find_compress [0, 0, 1] 2).1 = [0, 0, 1] ∧
     (Omp.find_compress [0, 0, 1] 2).2 = parIter [0, 0, 1] 2 2 ∧
     isRoot [0, 0, 1] (Omp.find_compress [0, 0, 1] 2).2) :=
  ⟨by decide, claim_C10 [0, 0, 1] 2 2 (by decide)⟩

/-- The reachability invariant: from every node, following parent pointers
reaches a root in finitely many steps. -/
def ReachesRoot (l : List Nat) : Prop :=
  ∀ x, ∃ k, isRoot l (parIter l k x)

lemma find_compress_root_of_reaches {l : List Nat} (h : ReachesRoot l)
    (x : Nat) : isRoot l (Omp.find_compress l x).2 := by
  obtain ⟨k, hk⟩ := h x
  exact (rootF_of_reach hk).2

/-- Linking one root under another distinct root preserves reachability. -/
lemma reaches_set_link {l : List Nat} {r1 r2 : Nat} (hr1 : isRoot l r1)
    (hr2 : isRoot l r2) (hne : r1 ≠ r2) (h : ReachesRoot l) :
    ReachesRoot (l.set r2 r1) := by
  by_cases hlen : r2 < l.length
  swap
  · rw [List.set_eq_of_length_le (by omega)]
    exact h
  intro x
  classical
  obtain ⟨k0, hk0⟩ := h x
  have hex : ∃ k, isRoot l (parIter l k x) := ⟨k0, hk0⟩
  have hm : isRoot l (parIter l (Nat.find hex) x) := Nat.find_spec hex
  have hmin : ∀ j, j < Nat.find hex → ¬ isRoot l (parIter l j x) :=
    fun j hj => Nat.find_min hex hj
  have hparL : ∀ y, y ≠ r2 → par (l.set r2 r1) y = par l y := by
    intro y hy
    rw [par_set, if_neg (by tauto)]
  have hpath : ∀ j, j ≤ Nat.find hex →
      parIter (l.set r2 r1) j x = parIter l j x := by
    intro j
    induction j with
    | zero => intro _; rfl
    | succ j ih =>
      intro hj
      have hjlt : j < Nat.find hex := by omega
      have hnr : ¬ isRoot l (parIter l j x) := hmin j hjlt
      have hne2 : parIter l j x ≠ r2 := fun he => hnr (he ▸ hr2)
      rw [parIter_succ', parIter_succ', ih (by omega), hparL _ hne2]
  have hr1L : isRoot (l.set r2 r1) r1 := by
    unfold isRoot
    rw [hparL r1 hne]
    exact hr1
  by_cases hr : parIter l (Nat.find hex) x = r2
  · refine ⟨Nat.find hex + 1, ?_⟩
    rw [parIter_succ', hpath _ (le_refl _), hr]
    have hset : par (l.set r2 r1) r2 = r1 := by
      rw [par_set, if_pos ⟨rfl, hlen⟩]
    rw [hset]
    exact hr1L
  · refine ⟨Nat.find hex, ?_⟩
    rw [hpath _ (le_refl _)]
    unfold isRoot
    rw [hparL _ hr]
    exact hm

lemma union_rem_loop_count :
    ∀ (fuel : Nat) (env : List (Option Nat)) (l : List Nat) (a b : Nat),
      (Omp.union_rem_loop fuel env l a b).2.2.2.2 ≤ fuel := by
  intro fuel
  induction fuel with
  | zero => intro env l a b; exact le_refl 0
  | succ f ih =>
    intro env l a b
    rw [Omp.union_rem_loop]
    dsimp only
    by_cases heq : (Omp.find_compress l a).2 =
        (Omp.find_compress (Omp.find_compress l a).1 b).2
    · rw [if_pos heq]
      dsimp only
      omega
    · rw [if_neg heq]
      cases env with
      | nil =>
        dsimp only
        by_cases hcas : par (Omp.find_compress (Omp.find_compress l a).1 b).1
            (max (Omp.find_compress l a).2
              (Omp.find_compress (Omp.find_compress l a).1 b).2) =
            max (Omp.find_compress l a).2
              (Omp.find_compress (Omp.find_compress l a).1 b).2
        · rw [if_pos hcas]
          dsimp only
          omega
        · rw [if_neg hcas]
          dsimp only
          have := ih [] (Omp.find_compress (Omp.find_compress l a).1 b).1
            (min (Omp.find_compress l a).2
              (Omp.find_compress (Omp.find_compress l a).1 b).2)
            (par (Omp.find_compress (Omp.find_compress l a).1 b).1
              (max (Omp.find_compress l a).2
                (Omp.find_compress (Omp.find_compress l a).1 b).2))
          omega
      | cons o env' =>
        cases o with
        | some v =>
          dsimp only
          have := ih env' (Omp.find_compress (Omp.find_compress l a).1 b).1
            (min (Omp.find_compress l a).2
              (Omp.find_compress (Omp.find_compress l a).1 b).2) v
          omega
        | none =>
          dsimp only
          by_cases hcas : par (Omp.find_compress (Omp.find_compress l a).1 b).1
              (max (Omp.find_compress l a).2
                (Omp.find_compress (Omp.find_compress l a).1 b).2) =
              max (Omp.find_compress l a).2
                (Omp.find_compress (Omp.find_compress l a).1 b).2
          · rw [if_pos hcas]
            dsimp only
            omega
          · rw [if_neg hcas]
            dsimp only
            have := ih (none :: env')
              (Omp.find_compress (Omp.find_compress l a).1 b).1
              (min (Omp.find_compress l a).2
                (Omp.find_compress (Omp.find_compress l a).1 b).2)
              (par (Omp.find_compress (Omp.find_compress l a).1 b).1
                (max (Omp.find_compress l a).2
                  (Omp.find_compress (Omp.find_compress l a).1 b).2))
            omega

lemma union_rem_loop_reaches :
    ∀ (fuel : Nat) (env : List (Option Nat)) (l : List Nat) (a b : Nat),
      ReachesRoot l →
      ReachesRoot (Omp.union_rem_loop fuel env l a b).1 ∧
      (Omp.union_rem_loop fuel env l a b).1.length = l.length := by
  intro fuel
  induction fuel with
  | zero => intro env l a b h; exact ⟨h, rfl⟩
  | succ f ih =>
    intro env l a b h
    rw [Omp.union_rem_loop]
    dsimp only
    rw [Omp.find_compress_fst, Omp.find_compress_fst]
    have hra : isRoot l (Omp.find_compress l a).2 :=
      find_compress_root_of_reaches h a
    have hrb : isRoot l (Omp.find_compress l b).2 :=
      find_compress_root_of_reaches h b
    by_cases heq : (Omp.find_compress l a).2 = (Omp.find_compress l b).2
    · rw [if_pos heq]
      exact ⟨h, rfl⟩
    · rw [if_neg heq]
      have hrmin : isRoot l (min (Omp.find_compress l a).2
          (Omp.find_compress l b).2) := by
        rcases Nat.le_total (Omp.find_compress l a).2
          (Omp.find_compress l b).2 with hle | hle
        · rw [min_eq_left hle]; exact hra
        · rw [min_eq_right hle]; exact hrb
      have hneq2 : min (Omp.find_compress l a).2 (Omp.find_compress l b).2 ≠
          max (Omp.find_compress l a).2 (Omp.find_compress l b).2 := by
        rcases Nat.le_total (Omp.find_compress l a).2
          (Omp.find_compress l b).2 with hle | hle
        · rw [min_eq_left hle, max_eq_right hle]
          exact heq
        · rw [min_eq_right hle, max_eq_left hle]
          exact fun he => heq he.symm
      cases env with
      | nil =>
        dsimp only
        by_cases hcas : par l (max (Omp.find_compress l a).2
            (Omp.find_compress l b).2) =
            max (Omp.find_compress l a).2 (Omp.find_compress l b).2
        · rw [if_pos hcas]
          exact ⟨reaches_set_link hrmin hcas hneq2 h, List.length_set ..⟩
        · rw [if_neg hcas]
          dsimp only
          exact ih [] l _ _ h
      | cons o env' =>
        cases o with
        | some v =>
          dsimp only
          exact ih env' l _ v h
        | none =>
          dsimp only
          by_cases hcas : par l (max (Omp.find_compress l a).2
              (Omp.find_compress l b).2) =
              max (Omp.find_compress l a).2 (Omp.find_compress l b).2
          · rw [if_pos hcas]
            exact ⟨reaches_set_link hrmin hcas hneq2 h, List.length_set ..⟩
          · rw [if_neg hcas]
            dsimp only
            exact ih (none :: env') l _ _ h

/-- Claim C9: `union_rem` performs at most `MAX_RETRIES = 10` CAS attempts;
it preserves the reachability invariant (so every internal root walk
terminates); and when the retry bound is exhausted with the two roots still
distinct, it stores the smaller root directly into the larger root's cell. -/
theorem claim_C9 (env : List (Option Nat)) (l : List Nat) (a b : Nat)
    (h : ReachesRoot l) :
    (Omp.union_rem env l a b).2 ≤ 10 ∧
    ReachesRoot (Omp.union_rem env l a b).1 ∧
    (∀ l1 a1 b1 n,
      Omp.union_rem_loop 10 env l a b = (l1, a1, b1, false, n) →
      isRoot l1 (Omp.find_compress l1 a1).2 ∧
      isRoot l1 (Omp.find_compress l1 b1).2 ∧
      ((Omp.find_compress l1 a1).2 ≠ (Omp.find_compress l1 b1).2 →
        (Omp.union_rem env l a b).1 =
          l1.set (max (Omp.find_compress l1 a1).2
              (Omp.find_compress l1 b1).2)
            (min (Omp.find_compress l1 a1).2
              (Omp.find_compress l1 b1).2))) := by
  have hcount := union_rem_loop_count 10 env l a b
  have hreach := union_rem_loop_reaches 10 env l a b h
  rcases hres : Omp.union_rem_loop 10 env l a b with
    ⟨l1, a1, b1, done, n⟩
  rw [hres] at hcount hreach
  have hrem : Omp.union_rem env l a b =
      match (l1, a1, b1, done, n) with
      | (l1, _, _, true, n) => (l1, n)
      | (l1, a1, b1, false, n) =>
        if (Omp.find_compress l1 a1).2 =
            (Omp.find_compress (Omp.find_compress l1 a1).1 b1).2 then
          ((Omp.find_compress (Omp.find_compress l1 a1).1 b1).1, n)
        else
          ((Omp.find_compress (Omp.find_compress l1 a1).1 b1).1.set
            (max (Omp.find_compress l1 a1).2
              (Omp.find_compress (Omp.find_compress l1 a1).1 b1).2)
            (min (Omp.find_compress l1 a1).2
              (Omp.find_compress (Omp.find_compress l1 a1).1 b1).2), n) := by
    unfold Omp.union_rem
    rw [hres]
  cases done with
  | true =>
    rw [hrem]
    refine ⟨hcount, hreach.1, fun l1' a1' b1' n' hcontra => ?_⟩
    cases hcontra
  | false =>
    have hreach1 : ReachesRoot l1 := hreach.1
    have hra1 : isRoot l1 (Omp.find_compress l1 a1).2 :=
      find_compress_root_of_reaches hreach1 a1
    have hrb1 : isRoot l1 (Omp.find_compress l1 b1).2 :=
      find_compress_root_of_reaches hreach1 b1
    have hfb1 : Omp.find_compress (Omp.find_compress l1 a1).1 b1 =
        Omp.find_compress l1 b1 := by
      rw [Omp.find_compress_fst]
    rw [hrem]
    dsimp only
    rw [hfb1]
    constructor
    · by_cases heq : (Omp.find_compress l1 a1).2 = (Omp.find_compress l1 b1).2
      · rw [if_pos heq]
        exact hcount
      · rw [if_neg heq]
        exact hcount
    constructor
    · by_cases heq : (Omp.find_compress l1 a1).2 = (Omp.find_compress l1 b1).2
      · rw [if_pos heq, Omp.find_compress_fst]
        exact hreach1
      · rw [if_neg heq, Omp.find_compress_fst]
        have hrmin : isRoot l1 (min (Omp.find_compress l1 a1).2
            (Omp.find_compress l1 b1).2) := by
          rcases Nat.le_total (Omp.find_compress l1 a1).2
            (Omp.find_compress l1 b1).2 with hle | hle
          · rw [min_eq_left hle]; exact hra1
          · rw [min_eq_right hle]; exact hrb1
        have hrmax : isRoot l1 (max (Omp.find_compress l1 a1).2
            (Omp.find_compress l1 b1).2) := by
          rcases Nat.le_total (Omp.find_compress l1 a1).2
            (Omp.find_compress l1 b1).2 with hle | hle
          · rw [max_eq_right hle]; exact hrb1
          · rw [max_eq_left hle]; exact hra1
        have hneq2 : min (Omp.find_compress l1 a1).2
            (Omp.find_compress l1 b1).2 ≠
            max (Omp.find_compress l1 a1).2 (Omp.find_compress l1 b1).2 := by
          rcases Nat.le_total (Omp.find_compress l1 a1).2
            (Omp.find_compress l1 b1).2 with hle | hle
          · rw [min_eq_left hle, max_eq_right hle]
            exact heq
          · rw [min_eq_right hle, max_eq_left hle]
            exact fun he => heq he.symm
        exact reaches_set_link hrmin hrmax hneq2 hreach1
    · intro l1' a1' b1' n' hinj
      injection hinj with h1 hrest
      injection hrest with h2 hrest
      injection hrest with h3 hrest
      injection hrest with h4 h5
      subst h1
      subst h2
      subst h3
      subst h5
      refine ⟨hra1, hrb1, fun hne => ?_⟩
      rw [if_neg hne, Omp.find_compress_fst]

/-- Allocation count of the parallel `cc_union_find`, from its control
flow: the fast path for NULL or `N == 0` returns before the label array is
allocated; otherwise the label array is allocated. -/
def Omp.uf_alloc_count (M? : Option CSCBinaryMatrix) : Nat :=
  match M? with
  | none => 0
  | some M => if M.nrows = 0 then 0 else 1

/-- Allocation count of the parallel `cc_label_propagation`, from its
control flow: there is no guard, so a NULL matrix is dereferenced in the
very first statement (undefined behavior, modeled `none`), and any
non-NULL matrix — `N == 0` included — allocates both the label array and
the bitmap. -/
def Omp.lp_alloc_count (M? : Option CSCBinaryMatrix) : Option Nat :=
  match M? with
  | none => none
  | some _ => some 2

/-- Claim C4 holds for variant 1 but is refuted for variant 0: the
parallel union-find has the NULL / `N == 0` fast path returning 0 with no
allocation, while `cc_label_propagation` has no guard — it dereferences a
NULL matrix before doing anything else, and on an `N == 0` matrix it still
allocates the label array and the bitmap before returning 0. -/
theorem claim_C4_code_bug :
    cc_openmp (some (CSCBinaryMatrix.mk 0 0 0 [] [0])) 4 1 = some 0 ∧
    Omp.uf_alloc_count (some (CSCBinaryMatrix.mk 0 0 0 [] [0])) = 0 ∧
    cc_openmp none 4 1 = some 0 ∧
    Omp.uf_alloc_count none = 0 ∧
    cc_openmp none 4 0 = none ∧
    Omp.lp_alloc_count none = none ∧
    cc_openmp (some (CSCBinaryMatrix.mk 0 0 0 [] [0])) 4 0 = some 0 ∧
    Omp.lp_alloc_count (some (CSCBinaryMatrix.mk 0 0 0 [] [0])) = some 2 := by
  decide

lemma decr_of_forall_lt {l : List Nat}
    (h : ∀ x, x < l.length → l.getD x x ≤ x) : Decr l := by
  intro x
  by_cases hx : x < l.length
  · exact h x hx
  · rw [par_ge_length l x (by omega)]

lemma reachesRoot_of_decr {l : List Nat} (hd : Decr l) : ReachesRoot l := by
  intro x
  induction x using Nat.strong_induction_on with
  | _ x ih =>
    by_cases hr : isRoot l x
    · exact ⟨0, hr⟩
    · obtain ⟨k, hk⟩ := ih (par l x) (par_lt_of_not_isRoot hd hr)
      exact ⟨k + 1, hk⟩

/-- Witness for C9 on a concrete array with an interfering environment. -/
theorem claim_C9_witness :
    ReachesRoot [0, 0, 1] ∧
    ((Omp.union_rem [some 2] [0, 0, 1] 1 2).2 ≤ 10 ∧
    ReachesRoot (Omp.union_rem [some 2] [0, 0, 1] 1 2).1 ∧
    (∀ l1 a1 b1 n,
      Omp.union_rem_loop 10 [some 2] [0, 0, 1] 1 2 = (l1, a1, b1, false, n) →
      isRoot l1 (Omp.find_compress l1 a1).2 ∧
      isRoot l1 (Omp.find_compress l1 b1).2 ∧
      ((Omp.find_compress l1 a1).2 ≠ (Omp.find_compress l1 b1).2 →
        (Omp.union_rem [some 2] [0, 0, 1] 1 2).1 =
          l1.set (max (Omp.find_compress l1 a1).2
              (Omp.find_compress l1 b1).2)
            (min (Omp.find_compress l1 a1).2
              (Omp.find_compress l1 b1).2)))) :=
  ⟨reachesRoot_of_decr (decr_of_forall_lt (by decide)),
    claim_C9 [some 2] [0, 0, 1] 1 2
      (reachesRoot_of_decr (decr_of_forall_lt (by decide)))⟩

lemma edges_nil {M : CSCBinaryMatrix} (hv : M.Valid) (hz : M.nnz = 0) :
    edges M = [] := by
  rw [List.eq_nil_iff_forall_not_mem]
  intro e he
  unfold edges at he
  rw [List.mem_flatMap] at he
  obtain ⟨c, hc, he⟩ := he
  rw [List.mem_range] at hc
  rw [List.mem_map] at he
  obtain ⟨r, hr, _⟩ := he
  unfold colRows at hr
  rw [List.mem_map] at hr
  obtain ⟨j, hj, _⟩ := hr
  rw [List.mem_range'] at hj
  obtain ⟨i, hi, _⟩ := hj
  have h1 : M.col_ptr.getD (c + 1) 0 ≤ M.nnz :=
    col_ptr_le_nnz hv (M.ncols - c - 1) (c + 1) (by omega)
  omega

lemma cmin_nil (x : Nat) : cmin [] x = x :=
  (starE_nil.mp (starE_cmin [] x)).symm

lemma minCount_nil (n : Nat) : minCount [] n = n := by
  unfold minCount
  have hfull : @Finset.filter Nat (fun i => cmin [] i = i)
      (Classical.decPred _) (Finset.range n) = Finset.range n := by
    ext x
    simp only [Finset.mem_filter]
    exact ⟨fun h => h.1, fun h => ⟨h, cmin_nil x⟩⟩
  rw [hfull, Finset.card_range]

/-- Claim C8: with no stored entries every variant returns `N` (all
singletons), and with `N = 0` every variant returns 0. -/
theorem claim_C8 (M : CSCBinaryMatrix) (T : Nat) (hv : M.Valid) :
    (M.nnz = 0 → 0 < M.nrows →
      cc_sequential M T 0 = some (Int.ofNat M.nrows) ∧
      cc_sequential M T 1 = some (Int.ofNat M.nrows) ∧
      cc_openmp (some M) T 0 = some (Int.ofNat M.nrows) ∧
      cc_openmp (some M) T 1 = some (Int.ofNat M.nrows)) ∧
    (M.nrows = 0 →
      cc_sequential M T 0 = some 0 ∧
      cc_sequential M T 1 = some 0 ∧
      cc_openmp (some M) T 0 = some 0 ∧
      cc_openmp (some M) T 1 = some 0) := by
  have key : M.nnz = 0 →
      cc_sequential M T 0 = some (Int.ofNat M.nrows) ∧
      cc_sequential M T 1 = some (Int.ofNat M.nrows) ∧
      cc_openmp (some M) T 0 = some (Int.ofNat M.nrows) ∧
      cc_openmp (some M) T 1 = some (Int.ofNat M.nrows) := by
    intro hz
    have hE : edges M = [] := edges_nil hv hz
    have hm : minCount (edges M) M.nrows = M.nrows := by
      rw [hE, minCount_nil]
    refine ⟨?_, ?_, ?_, ?_⟩
    · show Seq.cc_label_propegation M = _
      rw [cc_label_propegation_eq_minCount hv, hm]
    · show some (Seq.cc_union_find M) = _
      rw [cc_union_find_eq_minCount hv, hm]
    · show Omp.cc_label_propagation (some M) T = _
      rw [Omp.cc_label_propagation_eq_minCount hv T, hm]
    · show some (Omp.cc_union_find (some M) T) = _
      rw [Omp.uf_rem_eq_minCount hv T, hm]
  refine ⟨fun hz _ => key hz, fun hn => ?_⟩
  have hc0 : M.ncols = 0 := by
    have := hv.1
    omega
  have hz : M.nnz = 0 := by
    have h1 := hv.2.2.2.1
    have h2 := hv.2.2.2.2.1
    rw [hc0] at h2
    omega
  have := key hz
  rw [hn] at this
  exact this

/-- Witness for C8 at a concrete empty 2-node matrix. -/
theorem claim_C8_witness :
    (CSCBinaryMatrix.mk 2 2 0 [] [0, 0, 0]).Valid ∧
    (((CSCBinaryMatrix.mk 2 2 0 [] [0, 0, 0]).nnz = 0 →
      0 < (CSCBinaryMatrix.mk 2 2 0 [] [0, 0, 0]).nrows →
      cc_sequential (CSCBinaryMatrix.mk 2 2 0 [] [0, 0, 0]) 1 0 =
        some (Int.ofNat 2) ∧
      cc_sequential (CSCBinaryMatrix.mk 2 2 0 [] [0, 0, 0]) 1 1 =
        some (Int.ofNat 2) ∧
      cc_openmp (some (CSCBinaryMatrix.mk 2 2 0 [] [0, 0, 0])) 1 0 =
        some (Int.ofNat 2) ∧
      cc_openmp (some (CSCBinaryMatrix.mk 2 2 0 [] [0, 0, 0])) 1 1 =
        some (Int.ofNat 2)) ∧
    ((CSCBinaryMatrix.mk 2 2 0 [] [0, 0, 0]).nrows = 0 →
      cc_sequential (CSCBinaryMatrix.mk 2 2 0 [] [0, 0, 0]) 1 0 = some 0 ∧
      cc_sequential (CSCBinaryMatrix.mk 2 2 0 [] [0, 0, 0]) 1 1 = some 0 ∧
      cc_openmp (some (CSCBinaryMatrix.mk 2 2 0 [] [0, 0, 0])) 1 0 = some 0 ∧
      cc_openmp (some (CSCBinaryMatrix.mk 2 2 0 [] [0, 0, 0])) 1 1 = some 0)) :=
  ⟨by decide, claim_C8 (CSCBinaryMatrix.mk 2 2 0 [] [0, 0, 0]) 1 (by decide)⟩

/-- Witness for C1 at a concrete valid matrix and thread count. -/
theorem claim_C1_witness :
    (CSCBinaryMatrix.mk 3 3 2 [2, 0] [0, 0, 1, 2]).Valid ∧ 1 ≤ 2 ∧
    (cc_sequential (CSCBinaryMatrix.mk 3 3 2 [2, 0] [0, 0, 1, 2]) 2 0 =
      some (Seq.cc_union_find (CSCBinaryMatrix.mk 3 3 2 [2, 0] [0, 0, 1, 2])) ∧
    cc_sequential (CSCBinaryMatrix.mk 3 3 2 [2, 0] [0, 0, 1, 2]) 2 1 =
      some (Seq.cc_union_find (CSCBinaryMatrix.mk 3 3 2 [2, 0] [0, 0, 1, 2])) ∧
    cc_openmp (some (CSCBinaryMatrix.mk 3 3 2 [2, 0] [0, 0, 1, 2])) 2 0 =
      some (Seq.cc_union_find (CSCBinaryMatrix.mk 3 3 2 [2, 0] [0, 0, 1, 2])) ∧
    cc_openmp (some (CSCBinaryMatrix.mk 3 3 2 [2, 0] [0, 0, 1, 2])) 2 1 =
      some (Seq.cc_union_find (CSCBinaryMatrix.mk 3 3 2 [2, 0] [0, 0, 1, 2]))) :=
  ⟨by decide, by decide,
    claim_C1 (CSCBinaryMatrix.mk 3 3 2 [2, 0] [0, 0, 1, 2]) 2 (by decide)
      (by decide)⟩

end CC
